import Mathlib

/-!
Verification of the FamiLator text-translation core against its
natural-language specification.  The Python sources under `src/` are
shallowly embedded: `bytes`/`bytearray` values become `List Nat`,
Python `dict`s become insertion-ordered association lists, fallible
operations return `Option`/`Except`, and machine arithmetic is carried
out on `Nat`/`Int` exactly as Python's unbounded integers are.
-/

namespace FamiLator

/-- Decidable equality for `Except`, used to settle concrete runs of
fallible embedded operations. -/
instance {ε α : Type} [DecidableEq ε] [DecidableEq α] : DecidableEq (Except ε α) :=
  fun a b =>
    match a, b with
    | .error e, .error e' =>
      if h : e = e' then isTrue (by rw [h]) else isFalse (fun hh => h (by cases hh; rfl))
    | .ok x, .ok y =>
      if h : x = y then isTrue (by rw [h]) else isFalse (fun hh => h (by cases hh; rfl))
    | .error _, .ok _ => isFalse (fun hh => by cases hh)
    | .ok _, .error _ => isFalse (fun hh => by cases hh)

/-! ## Python semantics helpers -/

/-- Insertion-ordered dictionary update: Python `d[k] = v` keeps the key's
original position when it is already present, else appends. -/
def dictInsert {α β : Type} [DecidableEq α] (d : List (α × β)) (k : α) (v : β) :
    List (α × β) :=
  if d.any (fun p => decide (p.1 = k)) then
    d.map (fun p => if p.1 = k then (k, v) else p)
  else d ++ [(k, v)]

/-- Dictionary lookup, Python `d.get(k)`. -/
def dictGet {α β : Type} [DecidableEq α] (d : List (α × β)) (k : α) : Option β :=
  (d.find? (fun p => decide (p.1 = k))).map (fun p => p.2)

/-- Python slice read `l[a:b]` for non-negative bounds (out-of-range clamps). -/
def pySlice {α : Type} (l : List α) (a b : Nat) : List α :=
  (l.drop a).take (b - a)

/-- Python bytearray slice assignment `l[a:b] = x` for non-negative bounds:
the slice is clamped to the list, then replaced by `x` (which may change the
length of the buffer). -/
def pySliceAssign {α : Type} (l : List α) (a b : Nat) (x : List α) : List α :=
  let n := l.length
  let s := min a n
  let e := max s (min b n)
  l.take s ++ x ++ l.drop e

/-- Python `l[i] = v` (callers below always check bounds first, as the
source does). -/
def pySet {α : Type} (l : List α) (i : Nat) (v : α) : List α :=
  l.set i v

/-- In-place overwrite of `x.length` elements at offset `a`; the in-bounds
case of `pySliceAssign l a (a + x.length) x`. -/
def writeAt {α : Type} (l : List α) (a : Nat) (x : List α) : List α :=
  l.take a ++ x ++ l.drop (a + x.length)

/-- Whether `pat` occurs as a contiguous substring, Python `pat in cs`. -/
def listContainsSub (pat : List Char) : List Char → Bool
  | [] => pat.isEmpty
  | c :: rest => pat.isPrefixOf (c :: rest) || listContainsSub pat rest

/-- Split at the first occurrence of `c`, Python `s.split(c, 1)` when `c`
occurs (returns `none` when it does not). -/
def splitFirst (c : Char) : List Char → Option (List Char × List Char)
  | [] => none
  | x :: rest =>
    if x = c then some ([], rest)
    else match splitFirst c rest with
      | some (l, r) => some (x :: l, r)
      | none => none

/-- Python `str.strip()` (whitespace on both ends). -/
def stripChars (cs : List Char) : List Char :=
  ((cs.dropWhile Char.isWhitespace).reverse.dropWhile Char.isWhitespace).reverse

/-- Python `str.rstrip()` (trailing whitespace). -/
def rstripWs (cs : List Char) : List Char :=
  (cs.reverse.dropWhile Char.isWhitespace).reverse

/-- Python `str.rstrip("\n\r")`. -/
def rstripNewlines (cs : List Char) : List Char :=
  (cs.reverse.dropWhile (fun c => c = '\n' ∨ c = '\r')).reverse

/-- Python `str.lstrip()`. -/
def lstripWs (cs : List Char) : List Char :=
  cs.dropWhile Char.isWhitespace

/-- Value of one hexadecimal digit. -/
def hexVal (c : Char) : Option Nat :=
  if c.isDigit then some (c.toNat - 48)
  else if 'a' ≤ c ∧ c ≤ 'f' then some (c.toNat - 87)
  else if 'A' ≤ c ∧ c ≤ 'F' then some (c.toNat - 55)
  else none

/-- Digit run of Python `int(s, 16)` after the first digit: underscores are
allowed only singly and only between digits. -/
def hexCore (acc : Nat) : List Char → Option Nat
  | [] => some acc
  | '_' :: c :: rest =>
    match hexVal c with
    | some v => hexCore (16 * acc + v) rest
    | none => none
  | '_' :: [] => none
  | c :: rest =>
    match hexVal c with
    | some v => hexCore (16 * acc + v) rest
    | none => none

/-- Digit run of Python `int(s, 16)`: must start with a hex digit. -/
def hexDigitsVal : List Char → Option Nat
  | [] => none
  | c :: rest =>
    match hexVal c with
    | some v => hexCore v rest
    | none => none

/-- Magnitude part of Python `int(s, 16)`: optional `0x`/`0X` base marker
(an underscore may directly follow it), then hex digits. -/
def pyIntHexMag : List Char → Option Nat
  | '0' :: x :: rest =>
    if x = 'x' ∨ x = 'X' then
      match rest with
      | '_' :: rest2 => hexDigitsVal rest2
      | _ => hexDigitsVal rest
    else hexDigitsVal ('0' :: x :: rest)
  | cs => hexDigitsVal cs

/-- Python `int(s, 16)`: surrounding whitespace, an optional sign, an
optional base marker, then hex digits; `none` models the `ValueError`. -/
def pyIntHex (s : String) : Option Int :=
  match stripChars s.toList with
  | '+' :: rest => (pyIntHexMag rest).map Int.ofNat
  | '-' :: rest => (pyIntHexMag rest).map (fun n => -(Int.ofNat n))
  | cs => (pyIntHexMag cs).map Int.ofNat

/-- Character for one hexadecimal digit value (uppercase). -/
def hexDigitChar (n : Nat) : Char :=
  Char.ofNat (if n < 10 then 48 + n else 55 + n)

/-- Uppercase hexadecimal digits of `n`, with structural fuel (the fuel is
always at least the recursion depth at the call site below). -/
def natHexStrGo : Nat → Nat → String
  | 0, n => String.mk [hexDigitChar (n % 16)]
  | fuel + 1, n =>
    if n < 16 then String.mk [hexDigitChar n]
    else natHexStrGo fuel (n / 16) ++ String.mk [hexDigitChar (n % 16)]

/-- Uppercase hexadecimal digits of `n` (at least one digit). -/
def natHexStr (n : Nat) : String := natHexStrGo n n

/-- Python `"{:02X}".format(b)`. -/
def pyFormat02X (b : Int) : String :=
  if b < 0 then "-" ++ natHexStr b.natAbs
  else
    let s := natHexStr b.toNat
    if s.length < 2 then "0" ++ s else s

/-! ## EncodingTable (`src/src/encoding.py`) -/

/-- State of `EncodingTable`: `byte_to_char`, `char_to_byte`,
`control_codes` and `multi_byte_patterns` dictionaries.  Keys produced by
`int(hex_part, 16)` are arbitrary Python integers, hence `Int`. -/
structure EncodingTable where
  byte_to_char : List (Int × String)
  char_to_byte : List (String × Int)
  control_codes : List (Int × String)
  multi_byte_patterns : List (String × String)
deriving DecidableEq

/-- Freshly constructed `EncodingTable()`. -/
def emptyTable : EncodingTable := ⟨[], [], [], []⟩

/-- String from a character list. -/
def strOf (cs : List Char) : String := String.mk cs

/-- `EncodingTable._parse_table_line`: a line without `=` is a no-op;
placeholder keys (containing `XX` or `YY`) go to `multi_byte_patterns`;
otherwise the key must be valid hex and the value is routed to
`control_codes` (bracketed) or to the character maps. -/
def parseTableLine (t : EncodingTable) (line : String) : Except String EncodingTable :=
  match splitFirst '=' line.toList with
  | none => .ok t
  | some (hexRaw, charRaw0) =>
    let hexPart := stripChars hexRaw
    let charRaw := rstripNewlines charRaw0
    let charPart :=
      if charRaw.contains '#' then rstripWs (charRaw.takeWhile (fun c => c ≠ '#'))
      else charRaw
    if listContainsSub ['X', 'X'] hexPart || listContainsSub ['Y', 'Y'] hexPart then
      .ok { t with multi_byte_patterns :=
              dictInsert t.multi_byte_patterns (strOf hexPart) (strOf charPart) }
    else
      match pyIntHex (strOf hexPart) with
      | none => .error ("Invalid hex value: " ++ strOf hexPart)
      | some b =>
        let cp := strOf charPart
        if charPart.head? = some '<' ∧ charPart.getLast? = some '>' then
          .ok { t with control_codes := dictInsert t.control_codes b cp }
        else
          .ok { t with
                byte_to_char := dictInsert t.byte_to_char b cp,
                char_to_byte := dictInsert t.char_to_byte cp b }

/-- Loop of `EncodingTable.load_table` over the file's lines (1-based line
numbers); an error is reported with the offending line's number. -/
def loadTableGo (t : EncodingTable) (lineNum : Nat) :
    List String → Except (Nat × String) EncodingTable
  | [] => .ok t
  | rawLine :: rest =>
    let line := rstripNewlines rawLine.toList
    if line.isEmpty || (lstripWs line).head? = some '#' then
      loadTableGo t (lineNum + 1) rest
    else
      match parseTableLine t (strOf line) with
      | .error e => .error (lineNum, e)
      | .ok t' => loadTableGo t' (lineNum + 1) rest

/-- `EncodingTable.load_table` on the file's lines. -/
def loadTable (lines : List String) : Except (Nat × String) EncodingTable :=
  loadTableGo emptyTable 1 lines

/-- Error part of `_parse_table_line` as a function of the line text alone:
the error branch (invalid hex on a line containing `=` whose key is not a
placeholder pattern) does not depend on the accumulated table state. -/
def parseLineErr (line : String) : Option String :=
  match splitFirst '=' line.toList with
  | none => none
  | some (hexRaw, _) =>
    let hexPart := stripChars hexRaw
    if listContainsSub ['X', 'X'] hexPart || listContainsSub ['Y', 'Y'] hexPart then
      none
    else
      match pyIntHex (strOf hexPart) with
      | none => some ("Invalid hex value: " ++ strOf hexPart)
      | some _ => none

/-- The skip test of `load_table`: blank (after newline stripping) or
`#`-comment lines are ignored. -/
def skipLine (rawLine : String) : Bool :=
  (rstripNewlines rawLine.toList).isEmpty ||
    decide ((lstripWs (rstripNewlines rawLine.toList)).head? = some '#')

/-- Parse error raised for a raw file line: `load_table` strips line
endings before handing the line to `_parse_table_line`. -/
def lineFailure (rawLine : String) : Option String :=
  parseLineErr (strOf (rstripNewlines rawLine.toList))

/-- `EncodingTable.decode_byte`. -/
def decodeByte (t : EncodingTable) (b : Int) : String :=
  match dictGet t.control_codes b with
  | some c => c
  | none =>
    match dictGet t.byte_to_char b with
    | some ch => ch
    | none => "<UNK:" ++ pyFormat02X b ++ ">"

/-- End bound of `EncodingTable.decode_bytes`: Python's
`start + length if length else len(data)` treats both `None` and `0` as
absent. -/
def decodeBytesEnd (dataLen start : Nat) (length : Option Nat) : Nat :=
  match length with
  | some l => if l ≠ 0 then start + l else dataLen
  | none => dataLen

/-- Loop of `EncodingTable.decode_bytes`; `none` models the `IndexError`
raised when the loop indexes past the end of `data`.  The first argument is
structural fuel: with fuel `e - i` (as supplied below) the `0` case is
reached exactly when `i ≥ e`, so the guard semantics match the `while`. -/
def decodeBytesGo (t : EncodingTable) (data : List Nat) (e : Nat) :
    Nat → Nat → Option (List String)
  | 0, _ => some []
  | fuel + 1, i =>
    if i < e then
      match data.get? i with
      | none => none
      | some b =>
        if decodeByte t (Int.ofNat b) = "<END>" ∨ decodeByte t (Int.ofNat b) = "<NULL>"
        then some []
        else
          match decodeBytesGo t data e fuel (i + 1) with
          | none => none
          | some rest => some (decodeByte t (Int.ofNat b) :: rest)
    else some []

/-- `EncodingTable.decode_bytes`. -/
def decodeBytes (t : EncodingTable) (data : List Nat) (start : Nat)
    (length : Option Nat) : Option String :=
  (decodeBytesGo t data (decodeBytesEnd data.length start length)
    (decodeBytesEnd data.length start length - start) start).map String.join

/-- First table entry whose control-code value equals `code` (the `for`
search in `encode_string`). -/
def findControlByte (t : EncodingTable) (code : String) : Option Int :=
  (t.control_codes.find? (fun p => decide (p.2 = code))).map (fun p => p.1)

/-- Loop of `EncodingTable.encode_string`: a `<` with a later `>` is a
control-code token resolved by value search; without a closing `>` it falls
through to the ordinary character path.  The first argument is structural
fuel; every call keeps it at least the character count left, so the
fuel-exhausted case is unreachable. -/
def encodeGo (t : EncodingTable) : Nat → List Char → Option (List Int)
  | _, [] => some []
  | 0, _ :: _ => none
  | fuel + 1, c :: rest =>
    if c = '<' then
      match (c :: rest).findIdx? (fun x => decide (x = '>')) with
      | some j =>
        let code := strOf ((c :: rest).take (j + 1))
        match findControlByte t code with
        | none => none
        | some b =>
          match encodeGo t fuel ((c :: rest).drop (j + 1)) with
          | none => none
          | some bs => some (b :: bs)
      | none =>
        match dictGet t.char_to_byte (String.mk [c]) with
        | none => none
        | some b =>
          match encodeGo t fuel rest with
          | none => none
          | some bs => some (b :: bs)
    else
      match dictGet t.char_to_byte (String.mk [c]) with
      | none => none
      | some b =>
        match encodeGo t fuel rest with
        | none => none
        | some bs => some (b :: bs)

/-- `EncodingTable.encode_string`; the final `bytes(result)` call fails on
any value outside `[0, 256)`. -/
def encodeString (t : EncodingTable) (text : String) : Option (List Nat) :=
  match encodeGo t text.toList.length text.toList with
  | none => none
  | some vals =>
    if vals.all (fun v => decide (0 ≤ v ∧ v < 256)) then
      some (vals.map Int.toNat)
    else none

/-- Descending-length loop of `TextReinjector._truncate_translation`
(`src/src/reinjector.py`). -/
def truncateGo (t : EncodingTable) (text : String) (maxBytes : Nat) : Nat → String
  | 0 => ""
  | l + 1 =>
    let tr := text.take (l + 1)
    match encodeString t tr with
    | some enc => if enc.length ≤ maxBytes then tr else truncateGo t text maxBytes l
    | none => truncateGo t text maxBytes l

/-- `TextReinjector._truncate_translation`. -/
def truncateTranslation (t : EncodingTable) (text : String) (maxBytes : Nat) : String :=
  truncateGo t text maxBytes text.length

/-- Whether a byte decodes to one of the two end markers recognised by
`decode_bytes`. -/
def isEndMarker (t : EncodingTable) (b : Nat) : Prop :=
  decodeByte t (Int.ofNat b) = "<END>" ∨ decodeByte t (Int.ofNat b) = "<NULL>"

instance (t : EncodingTable) (b : Nat) : Decidable (isEndMarker t b) := by
  unfold isEndMarker; infer_instance

/-! ## PointerUtils (`src/src/pointer_utils.py`) -/

/-- `PointerInfo`: location of the pointer, resolved target (stored value
plus the configured non-negative base offset), format and width. -/
structure PointerInfo where
  address : Nat
  target_address : Nat
  format_type : String
  size_bytes : Nat
deriving DecidableEq

/-- `PointerUtils.read_16bit_pointer`; `none` models the bounds
`ValueError`. -/
def read16 (rom : List Nat) (address : Nat) (littleEndian : Bool) : Option Nat :=
  if address + 1 ≥ rom.length then none
  else
    let b0 := rom.getD address 0
    let b1 := rom.getD (address + 1) 0
    if littleEndian then some ((b1 <<< 8) ||| b0) else some ((b0 <<< 8) ||| b1)

/-- `PointerUtils.write_16bit_pointer`; `none` models the two
`ValueError`s (bounds, and target above `0xFFFF`), both raised before any
byte is written. -/
def write16 (rom : List Nat) (address target : Nat) (littleEndian : Bool) :
    Option (List Nat) :=
  if address + 1 ≥ rom.length then none
  else if target > 0xFFFF then none
  else
    let high := (target >>> 8) &&& 0xFF
    let low := target &&& 0xFF
    if littleEndian then some ((rom.set address low).set (address + 1) high)
    else some ((rom.set address high).set (address + 1) low)

/-- Loop of `PointerUtils.read_pointer_table` (structural fuel is the number
of entries left; `i` is the running index). -/
def readPtrGo (rom : List Nat) (tableAddress : Nat) (littleEndian : Bool)
    (formatType : String) (baseOffset : Nat) : Nat → Nat → Option (List PointerInfo)
  | 0, _ => some []
  | k + 1, i =>
    let a := tableAddress + i * 2
    match read16 rom a littleEndian with
    | none => none
    | some v =>
      match readPtrGo rom tableAddress littleEndian formatType baseOffset k (i + 1) with
      | none => none
      | some rest =>
        some (⟨a, v + baseOffset, formatType, 2⟩ :: rest)

/-- `PointerUtils.read_pointer_table`; `none` models the `ValueError`s for
an unsupported format or an out-of-bounds pointer read. -/
def readPointerTable (rom : List Nat) (tableAddress count : Nat)
    (formatType : String) (baseOffset : Nat) : Option (List PointerInfo) :=
  if formatType = "little_endian_16bit" then
    readPtrGo rom tableAddress true formatType baseOffset count 0
  else if formatType = "big_endian_16bit" then
    readPtrGo rom tableAddress false formatType baseOffset count 0
  else none

/-- `PointerUtils.update_pointer_table`: rewrites every pointer whose
recorded target is a key of `changes`; a failed write raises, which leaves
the buffer partially updated (second component `false`). -/
def updatePointerTable (rom : List Nat) (pointers : List PointerInfo)
    (changes : List (Nat × Nat)) : List Nat × Bool :=
  match pointers with
  | [] => (rom, true)
  | p :: rest =>
    match dictGet changes p.target_address with
    | none => updatePointerTable rom rest changes
    | some newTarget =>
      if p.format_type = "little_endian_16bit" ∨ p.format_type = "big_endian_16bit" then
        match write16 rom p.address newTarget (p.format_type = "little_endian_16bit") with
        | none => (rom, false)
        | some rom' => updatePointerTable rom' rest changes
      else updatePointerTable rom rest changes

/-- Relation used by Python's stable `sorted(pointers, key=target_address)`:
Mathlib's insertion sort with `≤` on the key is stable, hence extensionally
the same function. -/
def ptrLe (p q : PointerInfo) : Prop := p.target_address ≤ q.target_address

instance : DecidableRel ptrLe := fun p q => by unfold ptrLe; infer_instance

/-- Loop of `PointerUtils.compact_pointer_targets`: each (sorted) pointer's
old target is mapped to the bump-allocator cursor, then the parallel payload
is written.  The map entry is recorded before the space check, but a raise
abandons the whole map (`none`), leaving the buffer as written so far. -/
def compactGo : List Nat → List (Nat × Nat) → Nat → List (PointerInfo × List Nat) →
    List Nat × Option (List (Nat × Nat))
  | rom, changes, _, [] => (rom, some changes)
  | rom, changes, cur, (p, data) :: rest =>
    let changes' := dictInsert changes p.target_address cur
    let endAddr := cur + data.length
    if endAddr > rom.length then (rom, none)
    else compactGo (pySliceAssign rom cur endAddr data) changes' endAddr rest

/-- `PointerUtils.compact_pointer_targets`: payloads are indexed in parallel
with the pointers **after sorting by target address** (`strings_data[i]` is
paired with `sorted_pointers[i]`); `none` in the second component models the
`ValueError`s (length mismatch, `min` of an empty sequence, insufficient
space). -/
def compactPointerTargets (rom : List Nat) (pointers : List PointerInfo)
    (stringsData : List (List Nat)) : List Nat × Option (List (Nat × Nat)) :=
  if pointers.length ≠ stringsData.length then (rom, none)
  else
    match (pointers.map (fun p => p.target_address)).minimum? with
    | none => (rom, none)
    | some m =>
      compactGo rom [] m ((List.insertionSort ptrLe pointers).zip stringsData)

/-- Keys of an association-list dictionary, in order. -/
def keysOf {α β : Type} (d : List (α × β)) : List α := d.map Prod.fst

/-- Total byte length of a payload list. -/
def sumLens (ds : List (List Nat)) : Nat := (ds.map (fun d => d.length)).sum

/-- Start addresses assigned by the bump allocator of
`compact_pointer_targets` to consecutive payloads from `cur`. -/
def payloadStarts (cur : Nat) : List (List Nat) → List Nat
  | [] => []
  | d :: rest => cur :: payloadStarts (cur + d.length) rest

/-! ## TextReinjector (`src/src/reinjector.py`) -/

/-- `TranslatedString` dataclass. -/
structure TranslatedString where
  string_id : String
  address : Nat
  original_text : String
  translated_text : String
  original_bytes : List Nat
  translated_bytes : List Nat
  pointer_address : Option Nat
  description : String
deriving DecidableEq

/-- `TextReinjector._can_expand_string`: free space (0x00/0xFF filler) must
follow the original bytes for the needed overflow, clamped to the image. -/
def canExpandString (rom : List Nat) (s : TranslatedString) : Bool :=
  if s.translated_bytes.length ≤ s.original_bytes.length then true
  else
    let needed := s.translated_bytes.length - s.original_bytes.length
    let checkStart := s.address + s.original_bytes.length
    let checkEnd := min (checkStart + needed) rom.length
    (List.range' checkStart (checkEnd - checkStart)).all
      (fun i => rom.getD i 0 == 0 || rom.getD i 0 == 255)

/-- Terminator byte chosen by `_reinject_fixed_locations`: the first table
entry mapping to the end token, else `0xFF`. -/
def terminatorByte (t : EncodingTable) : Int :=
  match findControlByte t "<END>" with
  | some b => b
  | none => 255

/-- Write of the (possibly truncated) translated bytes plus optional
terminator, as performed by the loop body of `_reinject_fixed_locations`.
The slice assignment is unchecked (Python `bytearray` slice assignment can
lengthen the buffer); the terminator store is guarded by the source's
`end_addr < len(rom_data)` test, and a terminator byte outside `[0, 256)`
raises after the payload write, leaving the payload in place. -/
def writeFixedBytes (t : EncodingTable) (rom : List Nat) (address : Nat)
    (bs : List Nat) : List Nat :=
  if address + bs.length < (pySliceAssign rom address (address + bs.length) bs).length then
    if 0 ≤ terminatorByte t ∧ terminatorByte t < 256 then
      pySet (pySliceAssign rom address (address + bs.length) bs) (address + bs.length)
        (terminatorByte t).toNat
    else pySliceAssign rom address (address + bs.length) bs
  else pySliceAssign rom address (address + bs.length) bs

/-- Per-string body of `_reinject_fixed_locations` (exceptions are caught
per string, leaving the buffer as already written). -/
def reinjectFixedStep (t : EncodingTable) (rom : List Nat) (s : TranslatedString) :
    List Nat :=
  if s.translated_bytes.length > s.original_bytes.length then
    if canExpandString rom s then writeFixedBytes t rom s.address s.translated_bytes
    else
      match encodeString t (truncateTranslation t s.translated_text
          s.original_bytes.length) with
      | some bs => writeFixedBytes t rom s.address bs
      | none => rom
  else writeFixedBytes t rom s.address s.translated_bytes

/-- `TextReinjector._reinject_fixed_locations` over the loaded translated
strings. -/
def reinjectFixedLocations (t : EncodingTable) (rom : List Nat)
    (strings : List TranslatedString) : List Nat :=
  strings.foldl (reinjectFixedStep t) rom

/-- Loop of `TextReinjector._extract_original_string` (structural fuel;
called with `rom.length - address` so fuel runs out exactly at the end of
the buffer). -/
def extractGo (t : EncodingTable) (rom : List Nat) (address : Nat) :
    Nat → Nat → List Nat
  | 0, _ => pySlice rom address rom.length
  | fuel + 1, cur =>
    if cur < rom.length then
      let b := rom.getD cur 0
      if (b = 0 ∨ b = 255) ∨ (dictGet t.control_codes (Int.ofNat b)).isSome then
        if dictGet t.control_codes (Int.ofNat b) = some "<END>" ∨
            dictGet t.control_codes (Int.ofNat b) = some "<NULL>" then
          pySlice rom address (cur + 1)
        else extractGo t rom address fuel (cur + 1)
      else extractGo t rom address fuel (cur + 1)
    else pySlice rom address rom.length

/-- `TextReinjector._extract_original_string`: scan forward from `address`
for a control byte mapped to the end or null token (a bare `0x00`/`0xFF`
does *not* stop the scan), returning the bytes up to and including it, or
the rest of the buffer. -/
def extractOriginalString (t : EncodingTable) (rom : List Nat) (address : Nat) :
    List Nat :=
  extractGo t rom address (rom.length - address) address

/-- Pointer-table configuration (`text_detection.pointer_table`). -/
structure PointerTableConfig where
  address : Nat
  count : Nat
  format_type : String
  base_offset : Nat
deriving DecidableEq

/-- New payloads assembled by `_reinject_pointer_table`: translated bytes
plus the fixed `0xFF` terminator when the pointer's target matches a
translated string's address, else the original string's bytes. -/
def assemblePayloads (t : EncodingTable) (rom : List Nat)
    (strings : List TranslatedString) (ptrs : List PointerInfo) : List (List Nat) :=
  let sba := strings.foldl (fun d s => dictInsert d s.address s) []
  ptrs.map (fun p =>
    match dictGet sba p.target_address with
    | some s => s.translated_bytes ++ [255]
    | none => extractOriginalString t rom p.target_address)

/-- `TextReinjector._reinject_pointer_table`: read the table (a read
failure propagates — `none`), assemble payloads in table order, then
compact and update inside a `try` whose failures are only recorded. -/
def reinjectPointerTable (t : EncodingTable) (rom : List Nat)
    (cfg : PointerTableConfig) (strings : List TranslatedString) :
    Option (List Nat) :=
  match readPointerTable rom cfg.address cfg.count cfg.format_type cfg.base_offset with
  | none => none
  | some ptrs =>
    let payloads := assemblePayloads t rom strings ptrs
    match compactPointerTargets rom ptrs payloads with
    | (rom1, none) => some rom1
    | (rom1, some changes) => some (updatePointerTable rom1 ptrs changes).1

/-! ## IPS patch generation (`TextReinjector._generate_ips_patch`) -/

/-- Inner `while` of `_generate_ips_patch`: first index at or after `i`
where the buffers agree or the buffer ends (structural fuel, supplied as
`A.length - i` at the call site). -/
def findDiffEnd (A B : List Nat) : Nat → Nat → Nat
  | 0, i => i
  | fuel + 1, i =>
    if i < A.length ∧ A.getD i 0 ≠ B.getD i 0 then findDiffEnd A B fuel (i + 1)
    else i

/-- Record scan of `_generate_ips_patch`: each maximal differing run
becomes one `(offset, replacement bytes)` record.  Python's
`int.to_bytes(3)` / `int.to_bytes(2)` raise `OverflowError` when the
offset needs more than 3 bytes or the run length more than 2 bytes; the
error aborts patch generation. -/
def ipsRecordsGo (A B : List Nat) : Nat → Nat → Except String (List (Nat × List Nat))
  | 0, _ => .ok []
  | fuel + 1, i =>
    if i < A.length then
      if A.getD i 0 ≠ B.getD i 0 then
        if i ≥ 16777216 then .error "OverflowError"
        else if findDiffEnd A B (A.length - i) i - i > 65535 then .error "OverflowError"
        else
          match ipsRecordsGo A B fuel (findDiffEnd A B (A.length - i) i) with
          | .error e => .error e
          | .ok rest => .ok ((i, pySlice B i (findDiffEnd A B (A.length - i) i)) :: rest)
      else ipsRecordsGo A B fuel (i + 1)
    else .ok []

/-- Records of `_generate_ips_patch`: requires equal-length images
(`ValueError` otherwise), then scans from offset 0. -/
def generateIpsRecords (A B : List Nat) : Except String (List (Nat × List Nat)) :=
  if A.length ≠ B.length then .error "ROM files must be same size for IPS patch"
  else ipsRecordsGo A B A.length 0

/-- Big-endian byte encoding of `v` in exactly `w` bytes
(`int.to_bytes(w, big)` after its range check). -/
def beBytes : Nat → Nat → List Nat
  | 0, _ => []
  | w + 1, v => beBytes w (v / 256) ++ [v % 256]

/-- Serialized IPS record: 3-byte big-endian offset, 2-byte big-endian
length, then the replacement bytes. -/
def ipsSerializeRecord (r : Nat × List Nat) : List Nat :=
  beBytes 3 r.1 ++ beBytes 2 r.2.length ++ r.2

/-- Full IPS patch file produced by `_generate_ips_patch`: the bytes of
`PATCH`, the records in order, then the bytes of `EOF`. -/
def generateIpsPatch (A B : List Nat) : Except String (List Nat) :=
  (generateIpsRecords A B).map (fun recs =>
    [80, 65, 84, 67, 72] ++ (recs.map ipsSerializeRecord).join ++ [69, 79, 70])

/-- Modelled from the spec: IPS patch application.  The repository contains
no patch-application code; spec §6 says consumers "apply records in file
order", each record writing its replacement bytes at its offset. -/
def applyIpsRecords (buf : List Nat) (recs : List (Nat × List Nat)) : List Nat :=
  recs.foldl (fun b r => writeAt b r.1 r.2) buf

/-! ## CHR ROM analyzer (`chr_analyzer.py`) -/

/-- `CHRType`: kind of CHR storage. -/
inductive CHRType where
  | chr_rom
  | chr_ram
  | unknown
deriving DecidableEq

/-- `TileInfo`: data about a single 8x8 tile. -/
structure TileInfo where
  index : Nat
  offset : Nat
  is_blank : Bool
  is_solid : Bool
  unique_colors : Nat
  pixel_count : Nat
  pattern_hash : String
deriving DecidableEq

/-- `FontRegion`: a contiguous tile region that likely forms a font. -/
structure FontRegion where
  start_tile : Nat
  end_tile : Nat
  tile_count : Nat
  estimated_chars : Nat
  char_width : Nat
  char_height : Nat
  notes : String
deriving DecidableEq

/-- `CHRAnalysis`: complete analysis result.  The `available_chars` set is
modelled as a list; the code always leaves it empty. -/
structure CHRAnalysis where
  chr_type : CHRType
  chr_size : Nat
  total_tiles : Nat
  blank_tiles : Nat
  unique_tiles : Nat
  font_regions : List FontRegion
  tile_info : List TileInfo
  available_chars : List String
  estimated_charset_size : Nat
  warnings : List String
deriving DecidableEq

/-- Lowercase hexadecimal digit (for Python `bytes.hex()`). -/
def hexDigitLower (n : Nat) : Char :=
  Char.ofNat (if n < 10 then 48 + n else 87 + n)

/-- Python `bytes.hex()`: two lowercase hex digits per byte. -/
def bytesHex (bs : List Nat) : String :=
  strOf (bs.bind (fun b => [hexDigitLower (b / 16), hexDigitLower (b % 16)]))

/-- `CHRAnalyzer._parse_ines_header` over the in-memory ROM bytes: `none`
models returning `False` (short data or bad magic); otherwise yields
`(prg_size, chr_size, mapper)` as set on the analyzer. -/
def parseInesHeader (rom : List Nat) : Option (Nat × Nat × Nat) :=
  if rom.length < 16 then none
  else if pySlice (pySlice rom 0 16) 0 4 ≠ [78, 69, 83, 26] then none
  else
    some ((pySlice rom 0 16).getD 4 0 * 16384,
      (pySlice rom 0 16).getD 5 0 * 8192,
      ((pySlice rom 0 16).getD 7 0 &&& 240) |||
        ((pySlice rom 0 16).getD 6 0 >>> 4))

/-- `CHRAnalyzer._extract_chr_data`: the slice after the header and PRG ROM,
or empty when the declared CHR region runs past the end of the ROM. -/
def extractChrData (rom : List Nat) (prg_size chr_size : Nat) : List Nat :=
  if 16 + prg_size + chr_size ≤ rom.length then
    pySlice rom (16 + prg_size) (16 + prg_size + chr_size)
  else []

/-- `CHRAnalyzer._get_tile_data`: 16 bytes at the tile's offset, or 16 zero
bytes when the tile would run out of bounds. -/
def getTileData (chr_data : List Nat) (tile_index : Nat) : List Nat :=
  if tile_index * 16 + 16 > chr_data.length then List.replicate 16 0
  else pySlice chr_data (tile_index * 16) (tile_index * 16 + 16)

/-- `CHRAnalyzer._decode_tile_pixels`: 64 2-bit pixels from the two
bitplanes, row-major, most significant bit first. -/
def decodeTilePixels (tile_data : List Nat) : List Nat :=
  (List.range 8).bind (fun row =>
    (List.range 8).map (fun col =>
      (((tile_data.getD (row + 8) 0 >>> (7 - col)) &&& 1) <<< 1) |||
        ((tile_data.getD row 0 >>> (7 - col)) &&& 1)))

/-- `CHRAnalyzer._analyze_tile`. -/
def analyzeTile (tile_index : Nat) (tile_data : List Nat) : TileInfo :=
  if tile_data.length < 16 then
    ⟨tile_index, tile_index * 16, true, false, 0, 0, ""⟩
  else
    ⟨tile_index, tile_index * 16,
      tile_data.all (fun b => b == 0),
      (tile_data.dedup.length == 1) && !tile_data.all (fun b => b == 0),
      (decodeTilePixels tile_data).dedup.length,
      ((decodeTilePixels tile_data).filter (fun p => decide (0 < p))).length,
      bytesHex tile_data⟩

/-- Note string of `_classify_region`: the size-bucket label, plus the
density label exactly when `10 <= sum/count <= 40` (stated exactly over
the integers; the float comparison agrees at these magnitudes). -/
def classifyNotes (count pixSum : Nat) : String :=
  (if 24 ≤ count ∧ count ≤ 32 then "Uppercase alphabet"
    else if 48 ≤ count ∧ count ≤ 56 then "Full alphabet (upper+lower)"
    else if 60 ≤ count ∧ count ≤ 72 then "Alphanumeric charset"
    else if 90 ≤ count then "Extended charset"
    else "Mixed tiles") ++
  (if 10 * count ≤ pixSum ∧ pixSum ≤ 40 * count then ", Font-like density"
    else "")

/-- `CHRAnalyzer._classify_region`. -/
def classifyRegion (start : Nat) (tiles : List TileInfo) : Option FontRegion :=
  match tiles.getLast? with
  | none => none
  | some last =>
    some ⟨start, last.index, tiles.length, tiles.length, 8, 8,
      classifyNotes tiles.length ((tiles.map (fun t => t.pixel_count)).sum)⟩

/-- One step of the run scan in `_detect_font_regions`: the state is
`(regions so far, current run start, current run)`. -/
def detectFontStep (acc : List FontRegion × Option Nat × List TileInfo)
    (tile : TileInfo) : List FontRegion × Option Nat × List TileInfo :=
  if !tile.is_blank && !tile.is_solid then
    (acc.1,
      (match acc.2.1 with
       | none => some tile.index
       | some s => some s),
      acc.2.2 ++ [tile])
  else if acc.2.2.length ≥ 16 then
    match classifyRegion (acc.2.1.getD 0) acc.2.2 with
    | some r => (acc.1 ++ [r], none, [])
    | none => (acc.1, none, [])
  else (acc.1, none, [])

/-- `CHRAnalyzer._detect_font_regions`. -/
def detectFontRegions (tiles : List TileInfo) : List FontRegion :=
  if tiles.isEmpty then []
  else
    match tiles.foldl detectFontStep ([], none, []) with
    | (regions, current_start, current_run) =>
      if current_run.length ≥ 16 ∧ current_start ≠ none then
        match classifyRegion (current_start.getD 0) current_run with
        | some r => regions ++ [r]
        | none => regions
      else regions

/-- `CHRAnalyzer._estimate_charset_size`. -/
def estimateCharsetSize (regions : List FontRegion) : Nat :=
  if regions.isEmpty then 0
  else (regions.map (fun r => r.estimated_chars)).sum

/-- `CHRAnalyzer._analyze_chr`. -/
def analyzeChr (chr_size : Nat) (chr_data : List Nat) : CHRAnalysis :=
  if chr_size = 0 then
    { chr_type := CHRType.chr_ram, chr_size := 0, total_tiles := 0,
      blank_tiles := 0, unique_tiles := 0, font_regions := [], tile_info := [],
      available_chars := [], estimated_charset_size := 0,
      warnings := ["CHR RAM detected - graphics are loaded at runtime"] }
  else
    { chr_type := CHRType.chr_rom, chr_size := chr_size,
      total_tiles := chr_size / 16,
      blank_tiles := (((List.range (chr_size / 16)).map
        (fun ti => analyzeTile ti (getTileData chr_data ti))).filter
          (fun t => t.is_blank)).length,
      unique_tiles := (((((List.range (chr_size / 16)).map
        (fun ti => analyzeTile ti (getTileData chr_data ti))).filter
          (fun t => !t.is_blank)).map (fun t => t.pattern_hash)).dedup).length,
      font_regions := detectFontRegions ((List.range (chr_size / 16)).map
        (fun ti => analyzeTile ti (getTileData chr_data ti))),
      tile_info := (List.range (chr_size / 16)).map
        (fun ti => analyzeTile ti (getTileData chr_data ti)),
      available_chars := [],
      estimated_charset_size := estimateCharsetSize
        (detectFontRegions ((List.range (chr_size / 16)).map
          (fun ti => analyzeTile ti (getTileData chr_data ti)))),
      warnings := [] }

/-- `CHRAnalyzer.analyze_rom` on in-memory ROM bytes (the file read is
abstracted away; `FileNotFoundError` for a missing path is outside the
model). -/
def analyzeRom (rom : List Nat) : CHRAnalysis :=
  match parseInesHeader rom with
  | none =>
    { chr_type := CHRType.unknown, chr_size := 0, total_tiles := 0,
      blank_tiles := 0, unique_tiles := 0, font_regions := [], tile_info := [],
      available_chars := [], estimated_charset_size := 0,
      warnings := ["Failed to parse iNES header"] }
  | some pcm => analyzeChr pcm.2.1 (extractChrData rom pcm.1 pcm.2.1)

/-! ## Supporting lemmas -/

theorem strOf_toList (s : String) : strOf s.toList = s := by
  cases s; rfl

theorem encodeString_empty (t : EncodingTable) : encodeString t "" = some [] := rfl

theorem truncateGo_encodes (t : EncodingTable) (text : String) (maxBytes : Nat) :
    ∀ l, ∃ bs, encodeString t (truncateGo t text maxBytes l) = some bs ∧
      bs.length ≤ maxBytes := by
  intro l
  induction l with
  | zero => exact ⟨[], encodeString_empty t, Nat.zero_le _⟩
  | succ l ih =>
    by_cases henc : ∃ enc, encodeString t (text.take (l + 1)) = some enc
    · obtain ⟨enc, he⟩ := henc
      by_cases hle : enc.length ≤ maxBytes
      · exact ⟨enc, by simp only [truncateGo, he, hle, if_true], hle⟩
      · obtain ⟨bs, h1, h2⟩ := ih
        exact ⟨bs, by simp only [truncateGo, he, hle, if_false]; exact h1, h2⟩
    · have he : encodeString t (text.take (l + 1)) = none := by
        cases h : encodeString t (text.take (l + 1)) with
        | none => rfl
        | some enc => exact absurd ⟨enc, h⟩ henc
      obtain ⟨bs, h1, h2⟩ := ih
      exact ⟨bs, by simp only [truncateGo, he]; exact h1, h2⟩

theorem pySliceAssign_eq_writeAt {α : Type} (l : List α) (a : Nat) (x : List α)
    (h : a + x.length ≤ l.length) :
    pySliceAssign l a (a + x.length) x = writeAt l a x := by
  unfold pySliceAssign writeAt
  have h1 : min a l.length = a := by omega
  have h2 : min (a + x.length) l.length = a + x.length := by omega
  have h3 : max a (a + x.length) = a + x.length := by omega
  simp only [h1, h2, h3]

theorem writeAt_length {α : Type} (l : List α) (a : Nat) (x : List α)
    (h : a + x.length ≤ l.length) : (writeAt l a x).length = l.length := by
  unfold writeAt
  simp only [List.length_append, List.length_take, List.length_drop]
  omega

theorem writeAt_get?_low {α : Type} (l : List α) (a : Nat) (x : List α) (j : Nat)
    (h : a + x.length ≤ l.length) (hj : j < a) :
    (writeAt l a x).get? j = l.get? j := by
  unfold writeAt
  rw [List.append_assoc]
  rw [List.get?_append (by simp; omega)]
  exact List.get?_take (by omega)

theorem writeAt_get?_mid {α : Type} (l : List α) (a : Nat) (x : List α) (j : Nat)
    (h : a + x.length ≤ l.length) (hj1 : a ≤ j) (hj2 : j < a + x.length) :
    (writeAt l a x).get? j = x.get? (j - a) := by
  unfold writeAt
  rw [List.append_assoc]
  rw [List.get?_append_right (by simp; omega)]
  rw [List.get?_append (by simp; omega)]
  congr 1
  simp
  omega

theorem writeAt_get?_high {α : Type} (l : List α) (a : Nat) (x : List α) (j : Nat)
    (h : a + x.length ≤ l.length) (hj : a + x.length ≤ j) :
    (writeAt l a x).get? j = l.get? j := by
  unfold writeAt
  rw [List.get?_append_right (by simp; omega)]
  rw [List.get?_drop]
  congr 1
  simp
  omega

theorem pySlice_get? {α : Type} (l : List α) (a b j : Nat) :
    (pySlice l a b).get? j = if j < b - a then l.get? (a + j) else none := by
  unfold pySlice
  by_cases hj : j < b - a
  · rw [if_pos hj, List.get?_take hj, List.get?_drop]
  · rw [if_neg hj]
    apply List.get?_eq_none.mpr
    have := List.length_take_le (b - a) (l.drop a)
    omega

theorem pySlice_congr {α : Type} (l₁ l₂ : List α) (a b : Nat)
    (h : ∀ j, a ≤ j → j < b → l₁.get? j = l₂.get? j) :
    pySlice l₁ a b = pySlice l₂ a b := by
  apply List.ext_get?
  intro j
  rw [pySlice_get?, pySlice_get?]
  by_cases hj : j < b - a
  · rw [if_pos hj, if_pos hj]
    exact h (a + j) (by omega) (by omega)
  · rw [if_neg hj, if_neg hj]

theorem pySlice_writeAt {α : Type} (l : List α) (a : Nat) (x : List α)
    (h : a + x.length ≤ l.length) :
    pySlice (writeAt l a x) a (a + x.length) = x := by
  apply List.ext_get?
  intro j
  rw [pySlice_get?]
  by_cases hj : j < a + x.length - a
  · rw [if_pos hj]
    rw [writeAt_get?_mid l a x (a + j) h (by omega) (by omega)]
    congr 1
    omega
  · rw [if_neg hj]
    symm
    apply List.get?_eq_none.mpr
    omega

theorem write16_length (rom : List Nat) (a v : Nat) (le : Bool) (rom' : List Nat)
    (h : write16 rom a v le = some rom') : rom'.length = rom.length := by
  unfold write16 at h
  by_cases h1 : a + 1 ≥ rom.length
  · rw [if_pos h1] at h; cases h
  · rw [if_neg h1] at h
    by_cases h2 : v > 0xFFFF
    · rw [if_pos h2] at h; cases h
    · rw [if_neg h2] at h
      cases le <;> simp only [if_true, if_false, Bool.false_eq_true] at h <;>
        (cases h; simp)

theorem updatePointerTable_length (ps : List PointerInfo) :
    ∀ (rom : List Nat) (ch : List (Nat × Nat)),
      (updatePointerTable rom ps ch).1.length = rom.length := by
  induction ps with
  | nil => intro rom ch; rfl
  | cons p rest ih =>
    intro rom ch
    unfold updatePointerTable
    cases dictGet ch p.target_address with
    | none => exact ih rom ch
    | some newT =>
      simp only
      by_cases hfmt : p.format_type = "little_endian_16bit" ∨
          p.format_type = "big_endian_16bit"
      · rw [if_pos hfmt]
        cases hw : write16 rom p.address newT (p.format_type = "little_endian_16bit") with
        | none => rfl
        | some rom' => rw [ih rom' ch]; exact write16_length rom p.address newT _ rom' hw
      · rw [if_neg hfmt]
        exact ih rom ch

theorem compactGo_length (zs : List (PointerInfo × List Nat)) :
    ∀ (rom : List Nat) (ch : List (Nat × Nat)) (cur : Nat),
      (compactGo rom ch cur zs).1.length = rom.length := by
  induction zs with
  | nil => intro rom ch cur; rfl
  | cons pd rest ih =>
    intro rom ch cur
    obtain ⟨p, data⟩ := pd
    unfold compactGo
    by_cases hsp : cur + data.length > rom.length
    · rw [if_pos hsp]
    · rw [if_neg hsp]
      rw [ih _ _ _]
      rw [pySliceAssign_eq_writeAt rom cur data (by omega)]
      exact writeAt_length rom cur data (by omega)

theorem compactPointerTargets_length (rom : List Nat) (ps : List PointerInfo)
    (ds : List (List Nat)) :
    (compactPointerTargets rom ps ds).1.length = rom.length := by
  unfold compactPointerTargets
  by_cases hlen : ps.length ≠ ds.length
  · rw [if_pos hlen]
  · rw [if_neg hlen]
    cases hmin : (ps.map (fun p => p.target_address)).minimum? with
    | none => rfl
    | some m => exact compactGo_length _ rom [] m

theorem truncate_encode_le (t : EncodingTable) (text : String) (maxBytes : Nat)
    (bs : List Nat)
    (h : encodeString t (truncateTranslation t text maxBytes) = some bs) :
    bs.length ≤ maxBytes := by
  obtain ⟨bs', h1, h2⟩ := truncateGo_encodes t text maxBytes text.length
  unfold truncateTranslation at h
  rw [h] at h1
  cases h1
  exact h2

theorem writeFixedBytes_length (t : EncodingTable) (rom : List Nat) (address : Nat)
    (bs : List Nat) (h : address + bs.length ≤ rom.length) :
    (writeFixedBytes t rom address bs).length = rom.length := by
  unfold writeFixedBytes
  rw [pySliceAssign_eq_writeAt rom address bs h]
  have hlen : (writeAt rom address bs).length = rom.length := writeAt_length rom address bs h
  by_cases hterm : address + bs.length < (writeAt rom address bs).length
  · rw [if_pos hterm]
    by_cases hrange : 0 ≤ terminatorByte t ∧ terminatorByte t < 256
    · rw [if_pos hrange]
      unfold pySet
      rw [List.length_set]
      exact hlen
    · rw [if_neg hrange]; exact hlen
  · rw [if_neg hterm]; exact hlen

theorem reinjectFixedStep_length (t : EncodingTable) (rom : List Nat)
    (s : TranslatedString)
    (h : s.address + max s.original_bytes.length s.translated_bytes.length ≤ rom.length) :
    (reinjectFixedStep t rom s).length = rom.length := by
  unfold reinjectFixedStep
  by_cases hgt : s.translated_bytes.length > s.original_bytes.length
  · rw [if_pos hgt]
    by_cases hexp : canExpandString rom s = true
    · rw [if_pos hexp]
      exact writeFixedBytes_length t rom s.address s.translated_bytes (by omega)
    · rw [if_neg hexp]
      cases henc : encodeString t (truncateTranslation t s.translated_text
          s.original_bytes.length) with
      | none => rfl
      | some bs =>
        have := truncate_encode_le t s.translated_text s.original_bytes.length bs henc
        exact writeFixedBytes_length t rom s.address bs (by omega)
  · rw [if_neg hgt]
    exact writeFixedBytes_length t rom s.address s.translated_bytes (by omega)

theorem reinjectFixedLocations_length (t : EncodingTable)
    (strings : List TranslatedString) :
    ∀ (rom : List Nat),
      (∀ s ∈ strings,
        s.address + max s.original_bytes.length s.translated_bytes.length ≤ rom.length) →
      (reinjectFixedLocations t rom strings).length = rom.length := by
  induction strings with
  | nil => intro rom _; rfl
  | cons s rest ih =>
    intro rom hb
    unfold reinjectFixedLocations at ih ⊢
    simp only [List.foldl_cons]
    have hs := reinjectFixedStep_length t rom s (hb s (by simp))
    rw [ih (reinjectFixedStep t rom s)
      (fun s' hs' => by rw [hs]; exact hb s' (by simp [hs']))]
    exact hs

theorem parseTableLine_err_of_err (t : EncodingTable) (line : String) (e : String)
    (h : parseLineErr line = some e) : parseTableLine t line = .error e := by
  unfold parseLineErr at h
  unfold parseTableLine
  cases hsplit : splitFirst '=' line.toList with
  | none => rw [hsplit] at h; cases h
  | some pr =>
    obtain ⟨hexRaw, charRaw0⟩ := pr
    rw [hsplit] at h
    simp only at h ⊢
    by_cases hxx : (listContainsSub ['X', 'X'] (stripChars hexRaw) ||
        listContainsSub ['Y', 'Y'] (stripChars hexRaw)) = true
    · rw [if_pos hxx] at h; cases h
    · rw [if_neg hxx] at h
      rw [if_neg hxx]
      cases hhex : pyIntHex (strOf (stripChars hexRaw)) with
      | none =>
        rw [hhex] at h
        cases h
        rfl
      | some b => rw [hhex] at h; cases h

theorem parseTableLine_ok_of_noerr (t : EncodingTable) (line : String)
    (h : parseLineErr line = none) : ∃ t', parseTableLine t line = .ok t' := by
  unfold parseLineErr at h
  unfold parseTableLine
  cases hsplit : splitFirst '=' line.toList with
  | none => exact ⟨t, rfl⟩
  | some pr =>
    obtain ⟨hexRaw, charRaw0⟩ := pr
    rw [hsplit] at h
    simp only at h ⊢
    by_cases hxx : (listContainsSub ['X', 'X'] (stripChars hexRaw) ||
        listContainsSub ['Y', 'Y'] (stripChars hexRaw)) = true
    · rw [if_pos hxx]
      exact ⟨_, rfl⟩
    · rw [if_neg hxx] at h ⊢
      cases hhex : pyIntHex (strOf (stripChars hexRaw)) with
      | none => rw [hhex] at h; cases h
      | some b =>
        dsimp only
        split <;> split <;> exact ⟨_, rfl⟩

theorem loadTableGo_first_bad (msg : String) :
    ∀ (lines : List String) (t : EncodingTable) (n i : Nat) (line : String),
      lines.get? i = some line →
      skipLine line = false →
      lineFailure line = some msg →
      (∀ j l', j < i → lines.get? j = some l' →
        skipLine l' = true ∨ lineFailure l' = none) →
      loadTableGo t n lines = .error (n + i, msg) := by
  intro lines
  induction lines with
  | nil =>
    intro t n i line hget _ _ _
    simp at hget
  | cons l rest ih =>
    intro t n i line hget hskip hfail hprev
    cases i with
    | zero =>
      have hl : l = line := by simpa using hget
      subst hl
      simp only [loadTableGo]
      rw [show ((rstripNewlines l.toList).isEmpty ||
        decide ((lstripWs (rstripNewlines l.toList)).head? = some '#')) = skipLine l
        from rfl]
      rw [hskip]
      simp only [Bool.false_eq_true, if_false]
      rw [parseTableLine_err_of_err t _ msg hfail]
      simp
    | succ i =>
      have hstep : ∀ t₀ : EncodingTable,
          (skipLine l = true → loadTableGo t₀ n (l :: rest) = loadTableGo t₀ (n + 1) rest) := by
        intro t₀ hsl
        simp only [loadTableGo]
        rw [show ((rstripNewlines l.toList).isEmpty ||
          decide ((lstripWs (rstripNewlines l.toList)).head? = some '#')) = skipLine l
          from rfl]
        rw [hsl]
        simp
      have hrest : rest.get? i = some line := by simpa using hget
      have hprev' : ∀ j l', j < i → rest.get? j = some l' →
          skipLine l' = true ∨ lineFailure l' = none := by
        intro j l' hj hg
        exact hprev (j + 1) l' (by omega) (by simpa using hg)
      by_cases hsl : skipLine l = true
      · rw [hstep t hsl]
        rw [show n + (i + 1) = n + 1 + i by omega]
        exact ih t (n + 1) i line hrest hskip hfail hprev'
      · have hnone : lineFailure l = none := by
          rcases hprev 0 l (Nat.succ_pos i) (by simp) with h | h
          · exact absurd h hsl
          · exact h
        obtain ⟨t', hok⟩ := parseTableLine_ok_of_noerr t _ hnone
        simp only [loadTableGo]
        rw [show ((rstripNewlines l.toList).isEmpty ||
          decide ((lstripWs (rstripNewlines l.toList)).head? = some '#')) = skipLine l
          from rfl]
        rw [Bool.not_eq_true] at hsl
        rw [hsl]
        simp only [Bool.false_eq_true, if_false]
        rw [hok]
        dsimp only
        rw [show n + (i + 1) = n + 1 + i by omega]
        exact ih t' (n + 1) i line hrest hskip hfail hprev'

theorem findIdx_skip_false (p : Char → Bool) (xs : List Char) (y : Char) (ys : List Char) :
    ∀ i, (∀ x ∈ xs, p x = false) → p y = true →
      List.findIdx? p (xs ++ y :: ys) i = some (i + xs.length) := by
  induction xs with
  | nil => intro i _ hy; simp [List.findIdx?, hy]
  | cons a l ih =>
    intro i hxs hy
    have ha : p a = false := hxs a (by simp)
    simp only [List.cons_append, List.findIdx?, ha, Bool.false_eq_true, if_false,
      List.append_eq]
    rw [ih (i + 1) (fun x hx => hxs x (by simp [hx])) hy]
    congr 1
    simp
    omega

theorem encodeGo_token (t : EncodingTable) (mid : List Char) (b : Int) (fuel : Nat)
    (hmid : '>' ∉ mid)
    (hfind : findControlByte t (strOf ('<' :: (mid ++ ['>']))) = some b) :
    encodeGo t (fuel + 1) ('<' :: (mid ++ ['>'])) = some [b] := by
  have hfi : List.findIdx? (fun x => decide (x = '>'))
      ('<' :: (mid ++ ['>'])) 0 = some (mid.length + 1) := by
    have h := findIdx_skip_false (fun x => decide (x = '>')) ('<' :: mid) '>' [] 0
      (by
        intro x hx
        rcases List.mem_cons.mp hx with h | h
        · rw [h]; decide
        · simp only [decide_eq_false_iff_not]
          intro hc
          exact hmid (hc ▸ h))
      (by decide)
    simpa using h
  simp only [encodeGo, if_true, hfi]
  rw [List.take_of_length_le (by simp)]
  rw [hfind]
  rw [List.drop_eq_nil_of_le (by simp)]
  cases fuel <;> rfl

theorem encodeGo_single (t : EncodingTable) (c : Char) (b : Int) (fuel : Nat)
    (hget : dictGet t.char_to_byte (String.mk [c]) = some b) :
    encodeGo t (fuel + 1) [c] = some [b] := by
  by_cases hc : c = '<'
  · subst hc
    have hfi : List.findIdx? (fun x => decide (x = '>')) ['<'] 0 = none := by decide
    simp only [encodeGo, if_true, hfi, hget]
  · simp only [encodeGo, if_neg hc, hget]

theorem decodeBytesGo_stops (t : EncodingTable) (data : List Nat) (e : Nat) :
    ∀ (k i fuel : Nat), e ≤ i + fuel → i + k < e →
      (∀ j, j < k → ∃ b, data.get? (i + j) = some b ∧ ¬ isEndMarker t b) →
      (∀ b, data.get? (i + k) = some b → isEndMarker t b) →
      data.get? (i + k) ≠ none →
      decodeBytesGo t data e fuel i =
        some (((data.drop i).take k).map (fun b => decodeByte t (Int.ofNat b))) := by
  intro k
  induction k with
  | zero =>
    intro i fuel hfuel hlt _ hterm hdef
    obtain ⟨b, hb⟩ : ∃ b, data.get? (i + 0) = some b := by
      cases h : data.get? (i + 0) with
      | none => exact absurd h hdef
      | some b => exact ⟨b, rfl⟩
    cases fuel with
    | zero => omega
    | succ fuel =>
      have hie : i < e := by omega
      have ht : decodeByte t (Int.ofNat b) = "<END>" ∨
          decodeByte t (Int.ofNat b) = "<NULL>" := hterm b hb
      rw [Nat.add_zero] at hb
      simp only [decodeBytesGo, hie, if_true, hb, ht, List.take_zero, List.map_nil]
  | succ k ih =>
    intro i fuel hfuel hlt hpre hterm hdef
    obtain ⟨b, hb, hnt⟩ := hpre 0 (Nat.succ_pos k)
    rw [Nat.add_zero] at hb
    cases fuel with
    | zero => omega
    | succ fuel =>
      have hie : i < e := by omega
      have hrec := ih (i + 1) fuel (by omega) (by omega)
        (fun j hj => by
          obtain ⟨b', h1, h2⟩ := hpre (j + 1) (by omega)
          exact ⟨b', by rw [show i + 1 + j = i + (j + 1) by omega]; exact h1, h2⟩)
        (fun b' h => hterm b' (by rw [show i + (k + 1) = i + 1 + k by omega]; exact h))
        (by rw [show i + 1 + k = i + (k + 1) by omega]; exact hdef)
      have hnt' : ¬ (decodeByte t (Int.ofNat b) = "<END>" ∨
          decodeByte t (Int.ofNat b) = "<NULL>") := hnt
      simp only [decodeBytesGo, hie, if_true, hb, hnt', if_false, hrec]
      have hdrop : data.drop i = b :: data.drop (i + 1) := by
        have hlen : i < data.length := by
          by_contra hcon
          rw [List.get?_eq_none.mpr (by omega)] at hb
          cases hb
        rw [List.drop_eq_getElem_cons hlen]
        congr 1
        have hgg := List.get?_eq_getElem? data i
        rw [hb, List.getElem?_eq_getElem hlen] at hgg
        exact (Option.some_injective _ hgg.symm)
      rw [hdrop]
      simp

theorem dictInsert_mem {α β : Type} [DecidableEq α] (d : List (α × β)) (k : α) (v : β) :
    ∀ kv ∈ dictInsert d k v, kv = (k, v) ∨ (kv ∈ d ∧ kv.1 ≠ k) := by
  intro kv hkv
  unfold dictInsert at hkv
  by_cases hany : d.any (fun p => decide (p.1 = k)) = true
  · rw [if_pos hany] at hkv
    obtain ⟨p, hp, hpe⟩ := List.mem_map.mp hkv
    by_cases hpk : p.1 = k
    · rw [if_pos hpk] at hpe
      exact Or.inl hpe.symm
    · rw [if_neg hpk] at hpe
      exact Or.inr ⟨hpe ▸ hp, hpe ▸ hpk⟩
  · rw [if_neg hany] at hkv
    rcases List.mem_append.mp hkv with hin | hone
    · refine Or.inr ⟨hin, ?_⟩
      intro hk
      exact hany (List.any_eq_true.mpr ⟨kv, hin, by simp [hk]⟩)
    · left
      simpa using hone

theorem dictInsert_keys_update {α β : Type} [DecidableEq α] (d : List (α × β)) (k : α)
    (v : β) (hany : d.any (fun p => decide (p.1 = k)) = true) :
    keysOf (dictInsert d k v) = keysOf d := by
  unfold dictInsert keysOf
  rw [if_pos hany, List.map_map]
  apply List.map_congr_left
  intro p _
  by_cases hpk : p.1 = k
  · simp [hpk]
  · simp [hpk]

theorem dictInsert_keys_append {α β : Type} [DecidableEq α] (d : List (α × β)) (k : α)
    (v : β) (hany : ¬ d.any (fun p => decide (p.1 = k)) = true) :
    keysOf (dictInsert d k v) = keysOf d ++ [k] := by
  unfold dictInsert keysOf
  rw [if_neg hany]
  simp

theorem dictInsert_key_mem {α β : Type} [DecidableEq α] (d : List (α × β)) (k : α)
    (v : β) : k ∈ keysOf (dictInsert d k v) := by
  by_cases hany : d.any (fun p => decide (p.1 = k)) = true
  · rw [dictInsert_keys_update d k v hany]
    obtain ⟨p, hp, hpk⟩ := List.any_eq_true.mp hany
    have hpk' : p.1 = k := by simpa using hpk
    rw [← hpk']
    exact List.mem_map.mpr ⟨p, hp, rfl⟩
  · rw [dictInsert_keys_append d k v hany]
    simp

theorem dictInsert_keys_sub {α β : Type} [DecidableEq α] (d : List (α × β)) (k k' : α)
    (v : β) (h : k' ∈ keysOf d) : k' ∈ keysOf (dictInsert d k v) := by
  by_cases hany : d.any (fun p => decide (p.1 = k)) = true
  · rw [dictInsert_keys_update d k v hany]; exact h
  · rw [dictInsert_keys_append d k v hany]; simp [h]

theorem dictInsert_keys_nodup {α β : Type} [DecidableEq α] (d : List (α × β)) (k : α)
    (v : β) (h : (keysOf d).Nodup) : (keysOf (dictInsert d k v)).Nodup := by
  by_cases hany : d.any (fun p => decide (p.1 = k)) = true
  · rw [dictInsert_keys_update d k v hany]; exact h
  · rw [dictInsert_keys_append d k v hany]
    rw [List.nodup_append]
    refine ⟨h, List.nodup_singleton k, ?_⟩
    intro a ha hb
    rw [List.mem_singleton] at hb
    subst hb
    obtain ⟨p, hp, hpk⟩ := List.mem_map.mp ha
    exact hany (List.any_eq_true.mpr ⟨p, hp, by simp [hpk]⟩)

theorem sumLens_take_le (ds : List (List Nat)) (i j : Nat) (h : i ≤ j) :
    sumLens (ds.take i) ≤ sumLens (ds.take j) := by
  unfold sumLens
  rw [show j = i + (j - i) by omega, List.take_add]
  simp

theorem sumLens_take_succ (ds : List (List Nat)) (i : Nat) (d : List Nat)
    (h : ds.get? i = some d) :
    sumLens (ds.take (i + 1)) = sumLens (ds.take i) + d.length := by
  unfold sumLens
  have hi : i < ds.length := by
    by_contra hcon
    rw [List.get?_eq_none.mpr (by omega)] at h
    cases h
  rw [List.map_take, List.map_take]
  rw [List.sum_take_succ (ds.map (fun d => d.length)) i (by simpa using hi)]
  congr 1
  rw [List.getElem_map]
  congr 1
  have hg := List.get?_eq_getElem? ds i
  rw [h, List.getElem?_eq_getElem hi] at hg
  exact (Option.some_injective _ hg.symm)

theorem payloadStarts_get? (ds : List (List Nat)) :
    ∀ (cur i : Nat), (payloadStarts cur ds).get? i =
      if i < ds.length then some (cur + sumLens (ds.take i)) else none := by
  induction ds with
  | nil =>
    intro cur i
    simp [payloadStarts]
  | cons d rest ih =>
    intro cur i
    cases i with
    | zero => simp [payloadStarts, sumLens]
    | succ i =>
      simp only [payloadStarts, List.get?_cons_succ, ih (cur + d.length) i,
        List.length_cons, List.take_succ_cons]
      by_cases hi : i < rest.length
      · rw [if_pos hi, if_pos (by omega)]
        congr 1
        unfold sumLens
        simp
        omega
      · rw [if_neg hi, if_neg (by omega)]

theorem find?_append_none {α : Type} (p : α → Bool) (l₁ l₂ : List α)
    (h : l₁.find? p = none) : (l₁ ++ l₂).find? p = l₂.find? p := by
  induction l₁ with
  | nil => simp
  | cons a rest ih =>
    cases hp : p a with
    | true => simp [List.find?_cons, hp] at h
    | false =>
      rw [List.find?_cons, hp] at h
      rw [List.cons_append, List.find?_cons, hp]
      exact ih h

theorem find?_append_some {α : Type} (p : α → Bool) (l₁ l₂ : List α) (a : α)
    (h : l₁.find? p = some a) : (l₁ ++ l₂).find? p = some a := by
  induction l₁ with
  | nil => cases h
  | cons x rest ih =>
    cases hp : p x with
    | true =>
      rw [List.find?_cons, hp] at h
      rw [List.cons_append, List.find?_cons, hp]
      exact h
    | false =>
      rw [List.find?_cons, hp] at h
      rw [List.cons_append, List.find?_cons, hp]
      exact ih h

theorem dictGet_dictInsert_self {α β : Type} [DecidableEq α] (d : List (α × β))
    (k : α) (v : β) : dictGet (dictInsert d k v) k = some v := by
  unfold dictInsert dictGet
  by_cases hany : d.any (fun p => decide (p.1 = k)) = true
  · rw [if_pos hany]
    induction d with
    | nil => cases hany
    | cons p rest ih =>
      by_cases hpk : p.1 = k
      · simp [List.find?_cons, hpk]
      · rw [List.map_cons, List.find?_cons]
        have hfalse : decide ((if p.1 = k then ((k, v) : α × β) else p).1 = k) = false := by
          rw [if_neg hpk]
          simpa using hpk
        simp only [hfalse]
        apply ih
        rw [List.any_cons] at hany
        simpa [hpk] using hany
  · rw [if_neg hany]
    rw [find?_append_none _ d _ ?_]
    · simp
    · rw [List.find?_eq_none]
      intro p hp
      intro hd
      exact hany (List.any_eq_true.mpr ⟨p, hp, hd⟩)

theorem dictGet_dictInsert_other {α β : Type} [DecidableEq α] (d : List (α × β))
    (k k' : α) (v : β) (hne : k' ≠ k) :
    dictGet (dictInsert d k v) k' = dictGet d k' := by
  unfold dictInsert dictGet
  by_cases hany : d.any (fun p => decide (p.1 = k)) = true
  · rw [if_pos hany]
    clear hany
    induction d with
    | nil => simp
    | cons p rest ih =>
      rw [List.map_cons, List.find?_cons, List.find?_cons]
      by_cases hpk : p.1 = k
      · rw [if_pos hpk]
        have h1 : decide (((k, v) : α × β).1 = k') = false := by
          simpa using fun h => hne h.symm
        have h2 : decide (p.1 = k') = false := by
          simp only [decide_eq_false_iff_not]
          rw [hpk]
          exact fun h => hne h.symm
        simp only [h1, h2]
        exact ih
      · rw [if_neg hpk]
        cases hp' : decide (p.1 = k') with
        | true => simp only [hp']
        | false => simp only [hp']; exact ih
  · rw [if_neg hany]
    cases hfind : d.find? (fun q => decide (q.1 = k')) with
    | some q => rw [find?_append_some _ d _ q hfind]
    | none =>
      rw [find?_append_none _ d _ hfind]
      simp only [List.find?_cons, List.find?_nil]
      have hkk : decide (((k, v) : α × β).1 = k') = false := by
        simpa using fun h => hne h.symm
      simp only [hkk]

theorem lor_shiftLeft_add (h l : Nat) (hl : l < 256) : (h <<< 8) ||| l = 256 * h + l := by
  apply Nat.eq_of_testBit_eq
  intro i
  rw [Nat.testBit_or, Nat.testBit_shiftLeft]
  rw [show 256 * h = 2 ^ 8 * h by norm_num]
  rw [Nat.testBit_mul_pow_two_add h (show l < 2 ^ 8 by norm_num [hl]) i]
  by_cases hi : i < 8
  · simp [hi, Nat.not_le.mpr hi]
  · simp only [hi, if_false]
    have hlt : l.testBit i = false := Nat.testBit_eq_false_of_lt
      (lt_of_lt_of_le hl (Nat.pow_le_pow_right (show 0 < 2 by norm_num) (Nat.not_lt.mp hi)))
    simp [hlt, Nat.not_lt.mp hi]

theorem split16_roundtrip (v : Nat) (hv : v ≤ 65535) :
    (((v >>> 8) &&& 255) <<< 8) ||| (v &&& 255) = v := by
  have hl : v &&& 255 < 256 := lt_of_le_of_lt Nat.and_le_right (by norm_num)
  rw [lor_shiftLeft_add _ _ hl]
  have h1 : v &&& 255 = v % 256 := by
    have := Nat.and_pow_two_sub_one_eq_mod v 8
    norm_num at this
    exact this
  have h2 : (v >>> 8) &&& 255 = (v >>> 8) % 256 := by
    have := Nat.and_pow_two_sub_one_eq_mod (v >>> 8) 8
    norm_num at this
    exact this
  have h3 : v >>> 8 = v / 256 := by rw [Nat.shiftRight_eq_div_pow]
  rw [h1, h2, h3]
  omega

theorem get?_set_self_of_lt {α : Type} (l : List α) (i : Nat) (v : α)
    (h : i < l.length) : (l.set i v).get? i = some v := by
  rw [List.get?_set_eq]
  rw [List.get?_eq_get h]
  rfl

theorem read16_congr (rom₁ rom₂ : List Nat) (a : Nat) (le : Bool)
    (hlen : rom₁.length = rom₂.length)
    (h0 : rom₁.get? a = rom₂.get? a) (h1 : rom₁.get? (a + 1) = rom₂.get? (a + 1)) :
    read16 rom₁ a le = read16 rom₂ a le := by
  unfold read16
  rw [hlen]
  rw [List.getD_eq_get?, List.getD_eq_get?, List.getD_eq_get?, List.getD_eq_get?]
  rw [h0, h1]

theorem write16_read16 (rom : List Nat) (a v : Nat) (le : Bool) (rom2 : List Nat)
    (hw : write16 rom a v le = some rom2) :
    read16 rom2 a le = some v ∧ rom2.length = rom.length ∧
      (∀ j, j ≠ a → j ≠ a + 1 → rom2.get? j = rom.get? j) := by
  unfold write16 at hw
  by_cases h1 : a + 1 ≥ rom.length
  · rw [if_pos h1] at hw; cases hw
  · rw [if_neg h1] at hw
    by_cases h2 : v > 0xFFFF
    · rw [if_pos h2] at hw; cases hw
    · rw [if_neg h2] at hw
      have ha : a < rom.length := by omega
      have ha1 : a + 1 < rom.length := by omega
      cases le with
      | true =>
        simp only [if_true] at hw
        cases hw
        have hlen : (((rom.set a (v &&& 255)).set (a + 1) ((v >>> 8) &&& 255))).length
            = rom.length := by simp
        refine ⟨?_, hlen, ?_⟩
        · unfold read16
          rw [if_neg (by omega)]
          have hga : ((rom.set a (v &&& 255)).set (a + 1) ((v >>> 8) &&& 255)).get? a
              = some (v &&& 255) := by
            rw [List.get?_set_ne _ _ (by omega)]
            exact get?_set_self_of_lt rom a (v &&& 255) ha
          have hga1 : ((rom.set a (v &&& 255)).set (a + 1) ((v >>> 8) &&& 255)).get? (a + 1)
              = some ((v >>> 8) &&& 255) := by
            apply get?_set_self_of_lt
            simp
            omega
          rw [List.getD_eq_get?, List.getD_eq_get?, hga, hga1]
          simp only [Option.getD_some, if_true]
          rw [split16_roundtrip v (by omega)]
        · intro j hja hja1
          rw [List.get?_set_ne _ _ (fun h => hja1 h.symm),
            List.get?_set_ne _ _ (fun h => hja h.symm)]
      | false =>
        simp only [Bool.false_eq_true, if_false] at hw
        cases hw
        have hlen : (((rom.set a ((v >>> 8) &&& 255)).set (a + 1) (v &&& 255))).length
            = rom.length := by simp
        refine ⟨?_, hlen, ?_⟩
        · unfold read16
          rw [if_neg (by omega)]
          have hga : ((rom.set a ((v >>> 8) &&& 255)).set (a + 1) (v &&& 255)).get? a
              = some ((v >>> 8) &&& 255) := by
            rw [List.get?_set_ne _ _ (by omega)]
            exact get?_set_self_of_lt rom a ((v >>> 8) &&& 255) ha
          have hga1 : ((rom.set a ((v >>> 8) &&& 255)).set (a + 1) (v &&& 255)).get? (a + 1)
              = some (v &&& 255) := by
            apply get?_set_self_of_lt
            simp
            omega
          rw [List.getD_eq_get?, List.getD_eq_get?, hga, hga1]
          simp only [Option.getD_some, Bool.false_eq_true, if_false]
          rw [split16_roundtrip v (by omega)]
        · intro j hja hja1
          rw [List.get?_set_ne _ _ (fun h => hja1 h.symm),
            List.get?_set_ne _ _ (fun h => hja h.symm)]

theorem write16_some (rom : List Nat) (a v : Nat) (le : Bool)
    (h1 : a + 1 < rom.length) (h2 : v ≤ 0xFFFF) :
    ∃ rom2, write16 rom a v le = some rom2 := by
  unfold write16
  rw [if_neg (by omega), if_neg (by omega)]
  cases le <;> exact ⟨_, rfl⟩

theorem read16_some_bound (rom : List Nat) (a : Nat) (le : Bool) (v : Nat)
    (h : read16 rom a le = some v) : a + 1 < rom.length := by
  unfold read16 at h
  by_cases hb : a + 1 ≥ rom.length
  · rw [if_pos hb] at h; cases h
  · omega

theorem readPtrGo_spec (rom : List Nat) (tA : Nat) (le : Bool) (fmt : String)
    (bo : Nat) :
    ∀ (k i : Nat) (ps : List PointerInfo),
      readPtrGo rom tA le fmt bo k i = some ps →
      ps.length = k ∧
      ∀ j p, ps.get? j = some p →
        p.address = tA + (i + j) * 2 ∧ p.format_type = fmt ∧
        p.address + 1 < rom.length := by
  intro k
  induction k with
  | zero =>
    intro i ps h
    cases h
    exact ⟨rfl, fun j p hj => by cases hj⟩
  | succ k ih =>
    intro i ps h
    unfold readPtrGo at h
    dsimp only at h
    cases hr : read16 rom (tA + i * 2) le with
    | none => rw [hr] at h; cases h
    | some v =>
      rw [hr] at h
      cases hrest : readPtrGo rom tA le fmt bo k (i + 1) with
      | none => rw [hrest] at h; cases h
      | some rest =>
        rw [hrest] at h
        cases h
        obtain ⟨hlen, hspec⟩ := ih (i + 1) rest hrest
        refine ⟨by simp [hlen], ?_⟩
        intro j p hj
        cases j with
        | zero =>
          cases hj
          exact ⟨by simp, rfl, read16_some_bound rom (tA + i * 2) le v hr⟩
        | succ j =>
          rw [List.get?_cons_succ] at hj
          obtain ⟨h1, h2, h3⟩ := hspec j p hj
          refine ⟨?_, h2, h3⟩
          rw [h1]
          ring_nf

theorem compactGo_run (zs : List (PointerInfo × List Nat)) :
    ∀ (rom : List Nat) (m₀ : List (Nat × Nat)) (cur : Nat) (rom' : List Nat)
      (ch : List (Nat × Nat)),
      compactGo rom m₀ cur zs = (rom', some ch) →
      (∀ j, (j < cur ∨ cur + sumLens (zs.map Prod.snd) ≤ j) →
        rom'.get? j = rom.get? j) ∧
      (∀ idx p d, zs.get? idx = some (p, d) →
        pySlice rom' (cur + sumLens ((zs.map Prod.snd).take idx))
          (cur + sumLens ((zs.map Prod.snd).take idx) + d.length) = d ∧
        ((∀ idx' p' d', idx < idx' → zs.get? idx' = some (p', d') →
            p'.target_address ≠ p.target_address) →
          dictGet ch p.target_address =
            some (cur + sumLens ((zs.map Prod.snd).take idx)))) ∧
      (∀ k v, dictGet m₀ k = some v →
        (∀ idx p d, zs.get? idx = some (p, d) → p.target_address ≠ k) →
        dictGet ch k = some v) := by
  induction zs with
  | nil =>
    intro rom m₀ cur rom' ch hc
    cases hc
    refine ⟨fun j _ => rfl, ?_, fun k v hv _ => hv⟩
    intro idx p d hidx
    cases hidx
  | cons pd rest ih =>
    intro rom m₀ cur rom' ch hc
    obtain ⟨p, d⟩ := pd
    unfold compactGo at hc
    by_cases hsp : cur + d.length > rom.length
    · rw [if_pos hsp] at hc; cases hc
    · rw [if_neg hsp] at hc
      have hle : cur + d.length ≤ rom.length := by omega
      rw [pySliceAssign_eq_writeAt rom cur d hle] at hc
      have hlen1 : (writeAt rom cur d).length = rom.length := writeAt_length rom cur d hle
      obtain ⟨ihu, ihs, ihm⟩ := ih (writeAt rom cur d)
        (dictInsert m₀ p.target_address cur) (cur + d.length) rom' ch hc
      have hsum : sumLens (((p, d) :: rest).map Prod.snd) =
          d.length + sumLens (rest.map Prod.snd) := by
        simp [sumLens]
      refine ⟨?_, ?_, ?_⟩
      · intro j hj
        rw [hsum] at hj
        have h1 : rom'.get? j = (writeAt rom cur d).get? j := by
          apply ihu
          omega
        rw [h1]
        rcases hj with hlo | hhi
        · exact writeAt_get?_low rom cur d j hle (by omega)
        · exact writeAt_get?_high rom cur d j hle (by omega)
      · intro idx q dq hidx
        cases idx with
        | zero =>
          cases hidx
          constructor
          · have hslice1 : pySlice rom' cur (cur + d.length) =
                pySlice (writeAt rom cur d) cur (cur + d.length) := by
              apply pySlice_congr
              intro j hj1 hj2
              apply ihu
              omega
            simp only [List.map_cons, List.take_zero, sumLens, List.map_nil,
              List.sum_nil, Nat.add_zero]
            rw [hslice1]
            exact pySlice_writeAt rom cur d hle
          · intro hnotlater
            simp only [List.map_cons, List.take_zero, sumLens, List.map_nil,
              List.sum_nil, Nat.add_zero]
            apply ihm
            · exact dictGet_dictInsert_self m₀ p.target_address cur
            · intro idx' p' d' hidx'
              exact hnotlater (idx' + 1) p' d' (by omega) (by simpa using hidx')
        | succ idx =>
          rw [List.get?_cons_succ] at hidx
          obtain ⟨hsl, hget⟩ := ihs idx q dq hidx
          have harith : cur + d.length + sumLens ((rest.map Prod.snd).take idx) =
              cur + sumLens ((((p, d) :: rest).map Prod.snd).take (idx + 1)) := by
            simp [sumLens]
            omega
          constructor
          · rw [← harith]
            exact hsl
          · intro hnotlater
            rw [← harith]
            apply hget
            intro idx' p' d' hlt hidx'
            exact hnotlater (idx' + 1) p' d' (by omega) (by simpa using hidx')
      · intro k v hv hnot
        apply ihm
        · rw [dictGet_dictInsert_other m₀ p.target_address k cur
            (fun h => hnot 0 p d rfl h.symm)]
          exact hv
        · intro idx p' d' hidx'
          exact hnot (idx + 1) p' d' (by simpa using hidx')

theorem updatePointerTable_spec (ps : List PointerInfo) :
    ∀ (rom : List Nat) (ch : List (Nat × Nat)),
      (∀ p ∈ ps, p.format_type = "little_endian_16bit" ∨
        p.format_type = "big_endian_16bit") →
      (∀ p ∈ ps, p.address + 1 < rom.length) →
      (∀ p ∈ ps, ∃ v, dictGet ch p.target_address = some v ∧ v ≤ 0xFFFF) →
      List.Pairwise (fun p q => p.address + 2 ≤ q.address ∨ q.address + 2 ≤ p.address) ps →
      ∃ romF, updatePointerTable rom ps ch = (romF, true) ∧
        romF.length = rom.length ∧
        (∀ j, (∀ p ∈ ps, j ≠ p.address ∧ j ≠ p.address + 1) →
          romF.get? j = rom.get? j) ∧
        (∀ p ∈ ps, ∀ v, dictGet ch p.target_address = some v →
          read16 romF p.address (p.format_type = "little_endian_16bit") = some v) := by
  induction ps with
  | nil =>
    intro rom ch _ _ _ _
    exact ⟨rom, rfl, rfl, fun j _ => rfl, fun p hp => by cases hp⟩
  | cons p rest ih =>
    intro rom ch hfmt hbound hvals hpair
    obtain ⟨v, hv, hv16⟩ := hvals p (by simp)
    obtain ⟨rom2, hw⟩ := write16_some rom p.address v
      (p.format_type = "little_endian_16bit") (hbound p (by simp)) hv16
    obtain ⟨hread2, hlen2, huntouched2⟩ := write16_read16 rom p.address v _ rom2 hw
    rw [List.pairwise_cons] at hpair
    obtain ⟨hpairhead, hpairrest⟩ := hpair
    obtain ⟨romF, hupd, hlenF, huF, hrF⟩ := ih rom2 ch
      (fun q hq => hfmt q (by simp [hq]))
      (fun q hq => by rw [hlen2]; exact hbound q (by simp [hq]))
      (fun q hq => hvals q (by simp [hq]))
      hpairrest
    refine ⟨romF, ?_, by omega, ?_, ?_⟩
    · unfold updatePointerTable
      rw [hv]
      dsimp only
      rw [if_pos (hfmt p (by simp))]
      rw [hw]
      exact hupd
    · intro j hj
      rw [huF j (fun q hq => hj q (by simp [hq]))]
      obtain ⟨hj1, hj2⟩ := hj p (by simp)
      exact huntouched2 j hj1 hj2
    · intro q hq w hw'
      rcases List.mem_cons.mp hq with he | hin
      · subst he
        rw [hv] at hw'
        cases hw'
        have hread : read16 romF q.address (q.format_type = "little_endian_16bit") =
            read16 rom2 q.address (q.format_type = "little_endian_16bit") := by
          apply read16_congr romF rom2 q.address _ (by omega)
          · apply huF
            intro r hr
            rcases hpairhead r hr with hd | hd
            · constructor <;> omega
            · constructor <;> omega
          · apply huF
            intro r hr
            rcases hpairhead r hr with hd | hd
            · constructor <;> omega
            · constructor <;> omega
        rw [hread]
        exact hread2
      · exact hrF q hin w hw'

theorem get?_zip_some {α β : Type} (l₁ : List α) :
    ∀ (l₂ : List β) (i : Nat) (a : α) (b : β),
      l₁.get? i = some a → l₂.get? i = some b → (l₁.zip l₂).get? i = some (a, b) := by
  induction l₁ with
  | nil => intro l₂ i a b h; cases h
  | cons x rest ih =>
    intro l₂ i a b h1 h2
    cases l₂ with
    | nil => cases h2
    | cons y rest₂ =>
      cases i with
      | zero =>
        cases h1
        cases h2
        rfl
      | succ i =>
        rw [List.get?_cons_succ] at h1 h2
        simpa using ih rest₂ i a b h1 h2

theorem get?_zip_inv {α β : Type} (l₁ : List α) :
    ∀ (l₂ : List β) (i : Nat) (a : α) (b : β),
      (l₁.zip l₂).get? i = some (a, b) → l₁.get? i = some a ∧ l₂.get? i = some b := by
  induction l₁ with
  | nil => intro l₂ i a b h; simp [List.zip] at h
  | cons x rest ih =>
    intro l₂ i a b h
    cases l₂ with
    | nil => simp [List.zip] at h
    | cons y rest₂ =>
      cases i with
      | zero =>
        rw [show ((x :: rest).zip (y :: rest₂)) = (x, y) :: rest.zip rest₂ from rfl,
          List.get?_cons_zero] at h
        cases h
        exact ⟨rfl, rfl⟩
      | succ i =>
        rw [show ((x :: rest).zip (y :: rest₂)) = (x, y) :: rest.zip rest₂ from rfl,
          List.get?_cons_succ] at h
        obtain ⟨ha, hb⟩ := ih rest₂ i a b h
        exact ⟨ha, hb⟩

theorem compactGo_inj (zs : List (PointerInfo × List Nat)) :
    ∀ (m₀ : List (Nat × Nat)) (rom : List Nat) (cur : Nat) (rom' : List Nat)
      (ch : List (Nat × Nat)),
      compactGo rom m₀ cur zs = (rom', some ch) →
      (∀ pd ∈ zs, 1 ≤ pd.2.length) →
      (keysOf m₀).Nodup →
      (∀ kv ∈ m₀, kv.2 < cur) →
      (∀ kv kv', kv ∈ m₀ → kv' ∈ m₀ → kv.2 = kv'.2 → kv.1 = kv'.1) →
      (keysOf ch).Nodup ∧
      (∀ kv kv', kv ∈ ch → kv' ∈ ch → kv.2 = kv'.2 → kv.1 = kv'.1) ∧
      (∀ pd ∈ zs, pd.1.target_address ∈ keysOf ch) ∧
      (∀ k, k ∈ keysOf m₀ → k ∈ keysOf ch) := by
  induction zs with
  | nil =>
    intro m₀ rom cur rom' ch hc _ hnd _ hinj
    cases hc
    exact ⟨hnd, hinj, by simp, fun k hk => hk⟩
  | cons pd rest ih =>
    intro m₀ rom cur rom' ch hc hne hnd hbound hinj
    obtain ⟨p, data⟩ := pd
    unfold compactGo at hc
    by_cases hsp : cur + data.length > rom.length
    · rw [if_pos hsp] at hc
      cases hc
    · rw [if_neg hsp] at hc
      have hd1 : 1 ≤ data.length := hne (p, data) (by simp)
      have hm₁nd : (keysOf (dictInsert m₀ p.target_address cur)).Nodup :=
        dictInsert_keys_nodup m₀ p.target_address cur hnd
      have hm₁bound : ∀ kv ∈ dictInsert m₀ p.target_address cur,
          kv.2 < cur + data.length := by
        intro kv hkv
        rcases dictInsert_mem m₀ p.target_address cur kv hkv with he | ⟨hin, _⟩
        · rw [he]; omega
        · have := hbound kv hin; omega
      have hm₁inj : ∀ kv kv', kv ∈ dictInsert m₀ p.target_address cur →
          kv' ∈ dictInsert m₀ p.target_address cur → kv.2 = kv'.2 → kv.1 = kv'.1 := by
        intro kv kv' hkv hkv' hval
        rcases dictInsert_mem m₀ p.target_address cur kv hkv with he | ⟨hin, _⟩ <;>
          rcases dictInsert_mem m₀ p.target_address cur kv' hkv' with he' | ⟨hin', _⟩
        · rw [he, he']
        · have := hbound kv' hin'
          rw [he] at hval
          omega
        · have := hbound kv hin
          rw [he'] at hval
          omega
        · exact hinj kv kv' hin hin' hval
      obtain ⟨hnd', hinj', hcov', hkeys'⟩ := ih (dictInsert m₀ p.target_address cur)
        (pySliceAssign rom cur (cur + data.length) data) (cur + data.length) rom' ch hc
        (fun pd' hpd' => hne pd' (by simp [hpd'])) hm₁nd hm₁bound hm₁inj
      refine ⟨hnd', hinj', ?_, ?_⟩
      · intro pd' hpd'
        rcases List.mem_cons.mp hpd' with he | hin
        · rw [he]
          exact hkeys' p.target_address (dictInsert_key_mem m₀ p.target_address cur)
        · exact hcov' pd' hin
      · intro k hk
        exact hkeys' k (dictInsert_keys_sub m₀ p.target_address k cur hk)

theorem reinjectPointerTable_length (t : EncodingTable) (rom : List Nat)
    (cfg : PointerTableConfig) (strings : List TranslatedString) (romF : List Nat)
    (h : reinjectPointerTable t rom cfg strings = some romF) :
    romF.length = rom.length := by
  unfold reinjectPointerTable at h
  cases hr : readPointerTable rom cfg.address cfg.count cfg.format_type cfg.base_offset with
  | none => rw [hr] at h; cases h
  | some ptrs =>
    rw [hr] at h
    dsimp only at h
    have hc1 := compactPointerTargets_length rom ptrs (assemblePayloads t rom strings ptrs)
    cases hc : compactPointerTargets rom ptrs (assemblePayloads t rom strings ptrs) with
    | mk rom1 opt =>
      rw [hc] at h hc1
      cases opt with
      | none =>
        cases h
        exact hc1
      | some changes =>
        cases h
        rw [updatePointerTable_length ptrs rom1 changes]
        exact hc1

theorem readPointerTable_spec (rom : List Nat) (tA count : Nat) (fmt : String)
    (bo : Nat) (ptrs : List PointerInfo)
    (h : readPointerTable rom tA count fmt bo = some ptrs) :
    ptrs.length = count ∧
    (fmt = "little_endian_16bit" ∨ fmt = "big_endian_16bit") ∧
    ∀ j p, ptrs.get? j = some p →
      p.address = tA + j * 2 ∧ p.format_type = fmt ∧ p.address + 1 < rom.length := by
  unfold readPointerTable at h
  by_cases hle : fmt = "little_endian_16bit"
  · rw [if_pos hle] at h
    obtain ⟨hlen, hspec⟩ := readPtrGo_spec rom tA true fmt bo count 0 ptrs h
    refine ⟨hlen, Or.inl hle, ?_⟩
    intro j p hj
    obtain ⟨h1, h2, h3⟩ := hspec j p hj
    exact ⟨by rw [h1]; ring_nf, h2, h3⟩
  · rw [if_neg hle] at h
    by_cases hbe : fmt = "big_endian_16bit"
    · rw [if_pos hbe] at h
      obtain ⟨hlen, hspec⟩ := readPtrGo_spec rom tA false fmt bo count 0 ptrs h
      refine ⟨hlen, Or.inr hbe, ?_⟩
      intro j p hj
      obtain ⟨h1, h2, h3⟩ := hspec j p hj
      exact ⟨by rw [h1]; ring_nf, h2, h3⟩
    · rw [if_neg hbe] at h
      cases h

theorem findDiffEnd_step (A B : List Nat) (fuel i : Nat) :
    findDiffEnd A B (fuel + 1) i =
      if i < A.length ∧ A.getD i 0 ≠ B.getD i 0 then findDiffEnd A B fuel (i + 1)
      else i := rfl

theorem ipsRecordsGo_step (A B : List Nat) (fuel i : Nat) :
    ipsRecordsGo A B (fuel + 1) i =
      if i < A.length then
        if A.getD i 0 ≠ B.getD i 0 then
          if i ≥ 16777216 then .error "OverflowError"
          else if findDiffEnd A B (A.length - i) i - i > 65535 then .error "OverflowError"
          else
            match ipsRecordsGo A B fuel (findDiffEnd A B (A.length - i) i) with
            | .error e => .error e
            | .ok rest =>
              .ok ((i, pySlice B i (findDiffEnd A B (A.length - i) i)) :: rest)
        else ipsRecordsGo A B fuel (i + 1)
      else .ok [] := rfl

theorem pySlice_length {α : Type} (l : List α) (a b : Nat) :
    (pySlice l a b).length = min (b - a) (l.length - a) := by
  unfold pySlice
  simp

theorem findDiffEnd_spec (A B : List Nat) :
    ∀ (fuel i : Nat), A.length ≤ i + fuel → i ≤ A.length →
      i ≤ findDiffEnd A B fuel i ∧
      findDiffEnd A B fuel i ≤ A.length ∧
      (∀ j, i ≤ j → j < findDiffEnd A B fuel i → A.getD j 0 ≠ B.getD j 0) ∧
      (findDiffEnd A B fuel i < A.length →
        A.getD (findDiffEnd A B fuel i) 0 = B.getD (findDiffEnd A B fuel i) 0) := by
  intro fuel
  induction fuel with
  | zero =>
    intro i hf hi
    have h0 : findDiffEnd A B 0 i = i := rfl
    rw [h0]
    exact ⟨Nat.le_refl i, hi, fun j h1 h2 => absurd h1 (by omega),
      fun h => absurd h (by omega)⟩
  | succ fuel ih =>
    intro i hf hi
    by_cases hcond : i < A.length ∧ A.getD i 0 ≠ B.getD i 0
    · rw [findDiffEnd_step, if_pos hcond]
      obtain ⟨h1, h2, h3, h4⟩ := ih (i + 1) (by omega) (by omega)
      refine ⟨by omega, h2, ?_, h4⟩
      intro j hj1 hj2
      by_cases hji : j = i
      · subst hji
        exact hcond.2
      · exact h3 j (by omega) hj2
    · rw [findDiffEnd_step, if_neg hcond]
      refine ⟨Nat.le_refl i, hi, fun j h1 h2 => absurd h1 (by omega), ?_⟩
      intro h
      rcases Decidable.not_and_iff_or_not.mp hcond with hc | hc
      · omega
      · exact Decidable.not_not.mp hc

theorem findDiffEnd_succ_le (A B : List Nat) (i : Nat) (hi : i < A.length)
    (hd : A.getD i 0 ≠ B.getD i 0) : i + 1 ≤ findDiffEnd A B (A.length - i) i := by
  have heq : A.length - i = (A.length - i - 1) + 1 := by omega
  rw [heq]
  rw [findDiffEnd_step, if_pos ⟨hi, hd⟩]
  exact (findDiffEnd_spec A B (A.length - i - 1) (i + 1) (by omega) (by omega)).1

theorem ipsRecordsGo_self (A : List Nat) :
    ∀ (fuel i : Nat), ipsRecordsGo A A fuel i = .ok [] := by
  intro fuel
  induction fuel with
  | zero => intro i; rfl
  | succ fuel ih =>
    intro i
    unfold ipsRecordsGo
    by_cases hi : i < A.length
    · rw [if_pos hi]
      rw [if_neg (fun h => h rfl)]
      exact ih (i + 1)
    · rw [if_neg hi]

theorem ipsRecordsGo_apply (A B : List Nat) (hlen : A.length = B.length) :
    ∀ (fuel i : Nat) (recs : List (Nat × List Nat)) (C : List Nat),
      A.length ≤ i + fuel →
      ipsRecordsGo A B fuel i = .ok recs →
      C.length = A.length →
      (∀ j, i ≤ j → j < A.length → A.getD j 0 = B.getD j 0 → C.get? j = B.get? j) →
      ∀ j, (applyIpsRecords C recs).get? j = if j < i then C.get? j else B.get? j := by
  intro fuel
  induction fuel with
  | zero =>
    intro i recs C hf hr hC hagree j
    cases hr
    unfold applyIpsRecords
    simp only [List.foldl_nil]
    by_cases hj : j < i
    · rw [if_pos hj]
    · rw [if_neg hj]
      rw [List.get?_eq_none.mpr (by omega), List.get?_eq_none.mpr (by omega)]
  | succ fuel ih =>
    intro i recs C hf hr hC hagree j
    unfold ipsRecordsGo at hr
    by_cases hi : i < A.length
    · rw [if_pos hi] at hr
      by_cases hd : A.getD i 0 ≠ B.getD i 0
      · rw [if_pos hd] at hr
        by_cases hoff : i ≥ 16777216
        · rw [if_pos hoff] at hr; cases hr
        · rw [if_neg hoff] at hr
          by_cases hrun : findDiffEnd A B (A.length - i) i - i > 65535
          · rw [if_pos hrun] at hr; cases hr
          · rw [if_neg hrun] at hr
            cases hrest : ipsRecordsGo A B fuel (findDiffEnd A B (A.length - i) i) with
            | error e => rw [hrest] at hr; cases hr
            | ok rest =>
              rw [hrest] at hr
              cases hr
              obtain ⟨hk1, hk2, hk3, _⟩ :=
                findDiffEnd_spec A B (A.length - i) i (by omega) (by omega)
              have hk1' := findDiffEnd_succ_le A B i hi hd
              have hdata : (pySlice B i (findDiffEnd A B (A.length - i) i)).length =
                  findDiffEnd A B (A.length - i) i - i := by
                rw [pySlice_length]
                omega
              have hCk : i + (pySlice B i (findDiffEnd A B (A.length - i) i)).length ≤
                  C.length := by
                rw [hdata, hC]
                omega
              have happly : applyIpsRecords C
                  ((i, pySlice B i (findDiffEnd A B (A.length - i) i)) :: rest) =
                  applyIpsRecords
                    (writeAt C i (pySlice B i (findDiffEnd A B (A.length - i) i)))
                    rest := rfl
              rw [happly]
              have hC'len : (writeAt C i
                  (pySlice B i (findDiffEnd A B (A.length - i) i))).length = A.length := by
                rw [writeAt_length C i _ hCk]
                exact hC
              have hres := ih (findDiffEnd A B (A.length - i) i) rest
                (writeAt C i (pySlice B i (findDiffEnd A B (A.length - i) i)))
                (by omega) hrest hC'len
                (fun j' hj1 hj2 hj3 => by
                  rw [writeAt_get?_high C i _ j' hCk (by omega)]
                  exact hagree j' (by omega) hj2 hj3)
              rw [hres j]
              by_cases hj : j < i
              · rw [if_pos (by omega : j < findDiffEnd A B (A.length - i) i),
                  if_pos hj]
                exact writeAt_get?_low C i _ j hCk hj
              · rw [if_neg hj]
                by_cases hjk : j < findDiffEnd A B (A.length - i) i
                · rw [if_pos hjk]
                  rw [writeAt_get?_mid C i _ j hCk (by omega) (by omega)]
                  rw [pySlice_get?]
                  rw [if_pos (by omega)]
                  congr 1
                  omega
                · rw [if_neg hjk]
      · rw [if_neg hd] at hr
        have hres := ih (i + 1) recs C (by omega) hr hC
          (fun j' hj1 hj2 hj3 => hagree j' (by omega) hj2 hj3)
        rw [hres j]
        by_cases hj : j < i
        · rw [if_pos (by omega : j < i + 1), if_pos hj]
        · rw [if_neg hj]
          by_cases hji : j < i + 1
          · rw [if_pos hji]
            have hjeq : j = i := by omega
            subst hjeq
            exact hagree j (Nat.le_refl j) hi (Decidable.not_not.mp hd)
          · rw [if_neg hji]
    · rw [if_neg hi] at hr
      cases hr
      unfold applyIpsRecords
      simp only [List.foldl_nil]
      by_cases hj : j < i
      · rw [if_pos hj]
      · rw [if_neg hj]
        rw [List.get?_eq_none.mpr (by omega), List.get?_eq_none.mpr (by omega)]

theorem getD_eq_of_get?_eq (l : List Nat) (j x : Nat) (h : l.get? j = some x) :
    l.getD j 0 = x := by
  rw [List.getD_eq_get?, h]
  rfl

theorem generateIpsRecords_reconstructs (A B : List Nat)
    (recs : List (Nat × List Nat)) (hok : generateIpsRecords A B = .ok recs) :
    applyIpsRecords A recs = B := by
  unfold generateIpsRecords at hok
  by_cases hlen : A.length ≠ B.length
  · rw [if_pos hlen] at hok; cases hok
  · rw [if_neg hlen] at hok
    have hlen' : A.length = B.length := Decidable.not_not.mp hlen
    have hres := ipsRecordsGo_apply A B hlen' A.length 0 recs A (by omega) hok rfl
      (fun j _ hj2 hj3 => by
        obtain ⟨a, ha⟩ : ∃ a, A.get? j = some a := by
          cases h : A.get? j with
          | none => rw [List.get?_eq_none] at h; omega
          | some a => exact ⟨a, rfl⟩
        obtain ⟨b, hb⟩ : ∃ b, B.get? j = some b := by
          cases h : B.get? j with
          | none => rw [List.get?_eq_none] at h; omega
          | some b => exact ⟨b, rfl⟩
        rw [ha, hb]
        rw [getD_eq_of_get?_eq A j a ha, getD_eq_of_get?_eq B j b hb] at hj3
        rw [hj3])
    apply List.ext_get?
    intro j
    rw [hres j]
    rw [if_neg (by omega)]

theorem findDiffEnd_all_diff (A B : List Nat)
    (hdiff : ∀ j, j < A.length → A.getD j 0 ≠ B.getD j 0) :
    ∀ (fuel i : Nat), A.length ≤ i + fuel → i ≤ A.length →
      findDiffEnd A B fuel i = A.length := by
  intro fuel
  induction fuel with
  | zero =>
    intro i hf hi
    have h0 : findDiffEnd A B 0 i = i := rfl
    omega
  | succ fuel ih =>
    intro i hf hi
    by_cases hil : i < A.length
    · rw [findDiffEnd_step, if_pos ⟨hil, hdiff i hil⟩]
      exact ih (i + 1) (by omega) (by omega)
    · rw [findDiffEnd_step, if_neg (fun h => absurd h.1 hil)]
      omega

theorem pySlice_zero_left {α : Type} (l : List α) (b : Nat) :
    pySlice l 0 b = l.take b := by
  unfold pySlice
  rw [List.drop_zero, Nat.sub_zero]

theorem header_slice4 (rom : List Nat) :
    pySlice (pySlice rom 0 16) 0 4 = pySlice rom 0 4 := by
  rw [pySlice_zero_left, pySlice_zero_left, pySlice_zero_left, List.take_take]
  norm_num

theorem header_getD (rom : List Nat) (j : Nat) (hj : j < 16) :
    (pySlice rom 0 16).getD j 0 = rom.getD j 0 := by
  rw [pySlice_zero_left, List.getD_eq_get?, List.getD_eq_get?, List.get?_take hj]

theorem parseInesHeader_some (rom : List Nat) (hlen : 16 ≤ rom.length)
    (hmagic : pySlice rom 0 4 = [78, 69, 83, 26]) :
    parseInesHeader rom = some (rom.getD 4 0 * 16384, rom.getD 5 0 * 8192,
      (rom.getD 7 0 &&& 240) ||| (rom.getD 6 0 >>> 4)) := by
  unfold parseInesHeader
  rw [if_neg (by omega)]
  rw [header_slice4, if_neg (fun h => h hmagic)]
  rw [header_getD rom 4 (by omega), header_getD rom 5 (by omega),
    header_getD rom 6 (by omega), header_getD rom 7 (by omega)]

theorem parseInesHeader_bad (rom : List Nat)
    (h : rom.length < 16 ∨ pySlice rom 0 4 ≠ [78, 69, 83, 26]) :
    parseInesHeader rom = none := by
  unfold parseInesHeader
  by_cases hl : rom.length < 16
  · rw [if_pos hl]
  · rw [if_neg hl, header_slice4]
    rcases h with h | h
    · exact absurd h hl
    · rw [if_pos h]

theorem analyzeRom_header_fail (rom : List Nat)
    (h : parseInesHeader rom = none) :
    analyzeRom rom =
      { chr_type := CHRType.unknown, chr_size := 0, total_tiles := 0,
        blank_tiles := 0, unique_tiles := 0, font_regions := [],
        tile_info := [], available_chars := [], estimated_charset_size := 0,
        warnings := ["Failed to parse iNES header"] } := by
  unfold analyzeRom
  rw [h]

theorem analyzeRom_header_ok (rom : List Nat) (p c m : Nat)
    (h : parseInesHeader rom = some (p, c, m)) :
    analyzeRom rom = analyzeChr c (extractChrData rom p c) := by
  unfold analyzeRom
  rw [h]

theorem analyzeChr_zero (chr_data : List Nat) :
    analyzeChr 0 chr_data =
      { chr_type := CHRType.chr_ram, chr_size := 0, total_tiles := 0,
        blank_tiles := 0, unique_tiles := 0, font_regions := [],
        tile_info := [], available_chars := [], estimated_charset_size := 0,
        warnings := ["CHR RAM detected - graphics are loaded at runtime"] } := rfl

theorem analyzeChr_pos_chr_type (chr_size : Nat) (chr_data : List Nat)
    (h : chr_size ≠ 0) :
    (analyzeChr chr_size chr_data).chr_type = CHRType.chr_rom := by
  unfold analyzeChr
  rw [if_neg h]

theorem analyzeChr_pos_warnings (chr_size : Nat) (chr_data : List Nat)
    (h : chr_size ≠ 0) : (analyzeChr chr_size chr_data).warnings = [] := by
  unfold analyzeChr
  rw [if_neg h]

theorem analyzeChr_pos_tile_info (chr_size : Nat) (chr_data : List Nat)
    (h : chr_size ≠ 0) :
    (analyzeChr chr_size chr_data).tile_info = (List.range (chr_size / 16)).map
      (fun ti => analyzeTile ti (getTileData chr_data ti)) := by
  unfold analyzeChr
  rw [if_neg h]

theorem getTileData_nil (ti : Nat) : getTileData [] ti = List.replicate 16 0 := by
  unfold getTileData
  rw [if_pos (by simp only [List.length_nil]; omega)]

theorem analyzeTile_replicate_blank (ti : Nat) :
    (analyzeTile ti (List.replicate 16 0)).is_blank = true := rfl

/-! ## Claim theorems -/

/-- Counterexample to claim C1 as stated: with a fixed-location translated
string at address 3 of a 4-byte image whose replacement is one byte longer
than the original, `_can_expand_string` vacuously approves (the checked
range is clamped to empty) and the bytearray slice assignment then grows
the image from 4 to 5 bytes. -/
theorem c1_counterexample :
    (reinjectFixedLocations emptyTable [0, 0, 0, 0]
      [⟨"s1", 3, "A", "AB", [65], [65, 66], none, ""⟩]).length = 5 ∧
    ([0, 0, 0, 0] : List Nat).length = 4 := by decide

/-- Claim C1 amended: the modified image keeps the input image's exact byte
length provided, for the fixed-location strategy, every translated string's
write region (both its original extent and its replacement extent) lies
within the image; the pointer-table strategy always preserves the length
whenever it produces an image at all. -/
theorem c1_length_preserved (t : EncodingTable) (rom : List Nat)
    (strings : List TranslatedString) (cfg : PointerTableConfig) (romF : List Nat)
    (hb : ∀ s ∈ strings,
      s.address + max s.original_bytes.length s.translated_bytes.length ≤ rom.length)
    (hp : reinjectPointerTable t rom cfg strings = some romF) :
    (reinjectFixedLocations t rom strings).length = rom.length ∧
      romF.length = rom.length :=
  ⟨reinjectFixedLocations_length t strings rom hb,
    reinjectPointerTable_length t rom cfg strings romF hp⟩

/-- Counterexample to claim C2 as stated, in two concrete instances.
First, a pointer table whose entries are not sorted by target address
(first pointer targets 0x20, second 0x10): compaction pairs payloads with
the sorted pointers but indexes them in table order, so after the update
the first pointer (whose target matched the translated string, payload
`41 FF`) stores 0x12 and resolves to `42 FF`, the other string's bytes.
Second, a sorted one-entry table read with base offset 4: the update
writes the new absolute address 0x10 into the pointer, so re-reading it
with the table's base offset resolves to 0x14, which does not hold the
payload. -/
theorem c2_counterexample :
    (reinjectPointerTable ⟨[(65, "A")], [("A", 65)], [(255, "<END>")], []⟩
        ([32, 0, 16, 0] ++ List.replicate 12 0 ++ [66, 255] ++ List.replicate 14 0 ++
          [67, 255] ++ List.replicate 14 0)
        ⟨0, 2, "little_endian_16bit", 0⟩ [⟨"t", 32, "C", "A", [67], [65], some 0, ""⟩] =
      some ([18, 0, 16, 0] ++ List.replicate 12 0 ++ [65, 255, 66, 255] ++
        List.replicate 12 0 ++ [67, 255] ++ List.replicate 14 0) ∧
     (readPointerTable ([32, 0, 16, 0] ++ List.replicate 12 0 ++ [66, 255] ++
         List.replicate 14 0 ++ [67, 255] ++ List.replicate 14 0)
         0 2 "little_endian_16bit" 0).map
       (assemblePayloads ⟨[(65, "A")], [("A", 65)], [(255, "<END>")], []⟩
         ([32, 0, 16, 0] ++ List.replicate 12 0 ++ [66, 255] ++ List.replicate 14 0 ++
           [67, 255] ++ List.replicate 14 0) [⟨"t", 32, "C", "A", [67], [65], some 0, ""⟩]) =
       some [[65, 255], [66, 255]] ∧
     read16 ([18, 0, 16, 0] ++ List.replicate 12 0 ++ [65, 255, 66, 255] ++
       List.replicate 12 0 ++ [67, 255] ++ List.replicate 14 0) 0 true = some 18 ∧
     pySlice ([18, 0, 16, 0] ++ List.replicate 12 0 ++ [65, 255, 66, 255] ++
       List.replicate 12 0 ++ [67, 255] ++ List.replicate 14 0) 18 20 = [66, 255] ∧
     ([66, 255] : List Nat) ≠ [65, 255]) ∧
    (reinjectPointerTable ⟨[(65, "A")], [("A", 65)], [(255, "<END>")], []⟩
        ([12, 0] ++ List.replicate 14 0 ++ [68, 255] ++ List.replicate 14 0)
        ⟨0, 1, "little_endian_16bit", 4⟩ [⟨"u", 16, "D", "A", [68], [65], some 0, ""⟩] =
      some ([16, 0] ++ List.replicate 14 0 ++ [65, 255] ++ List.replicate 14 0) ∧
     read16 ([16, 0] ++ List.replicate 14 0 ++ [65, 255] ++ List.replicate 14 0) 0 true =
       some 16 ∧
     pySlice ([16, 0] ++ List.replicate 14 0 ++ [65, 255] ++ List.replicate 14 0)
       (16 + 4) 22 ≠ [65, 255]) := by decide

/-- Claim C2 amended: under the pointer-table strategy with a base offset
of 0 and a table whose entries are strictly sorted by target address, when
compaction succeeds, the new layout fits in 16-bit targets, and the pointer
fields are disjoint from the relocated payload region, every pointer in the
table resolves to exactly the payload assigned to it (translated bytes plus
terminator for targets matching a translated string, the original string's
bytes otherwise): the stored pointer value is its target's new address, and
the bytes there equal the payload. -/
theorem c2_pointer_resolution
    (t : EncodingTable) (rom : List Nat) (cfg : PointerTableConfig)
    (strings : List TranslatedString) (ptrs : List PointerInfo)
    (rom1 : List Nat) (changes : List (Nat × Nat)) (m : Nat)
    (hbase : cfg.base_offset = 0)
    (hread : readPointerTable rom cfg.address cfg.count cfg.format_type
      cfg.base_offset = some ptrs)
    (hsorted : List.Pairwise (fun p q => p.target_address < q.target_address) ptrs)
    (hmin : (ptrs.map (fun p => p.target_address)).minimum? = some m)
    (hcompact : compactPointerTargets rom ptrs
      (assemblePayloads t rom strings ptrs) = (rom1, some changes))
    (h16 : m + sumLens (assemblePayloads t rom strings ptrs) ≤ 65535)
    (hdisj : ∀ p ∈ ptrs, p.address + 2 ≤ m ∨
      m + sumLens (assemblePayloads t rom strings ptrs) ≤ p.address) :
    ∃ romF, reinjectPointerTable t rom cfg strings = some romF ∧
      ∀ idx p d, ptrs.get? idx = some p →
        (assemblePayloads t rom strings ptrs).get? idx = some d →
        ∃ newT, dictGet changes p.target_address = some newT ∧
          read16 romF p.address (p.format_type = "little_endian_16bit") = some newT ∧
          pySlice romF newT (newT + d.length) = d := by
  set ds := assemblePayloads t rom strings ptrs with hds
  obtain ⟨hcount, hfmts, hspec⟩ := readPointerTable_spec rom cfg.address cfg.count
    cfg.format_type cfg.base_offset ptrs hread
  have hdslen : ds.length = ptrs.length := by
    rw [hds]
    unfold assemblePayloads
    simp
  have hsortid : List.insertionSort ptrLe ptrs = ptrs := by
    apply List.Sorted.insertionSort_eq
    exact List.Pairwise.imp (fun h => Nat.le_of_lt h) hsorted
  have hcompact' : compactGo rom [] m (ptrs.zip ds) = (rom1, some changes) := by
    unfold compactPointerTargets at hcompact
    rw [if_neg (by omega)] at hcompact
    rw [hmin] at hcompact
    rw [hsortid] at hcompact
    exact hcompact
  obtain ⟨hrun_u, hrun_s, _⟩ := compactGo_run (ptrs.zip ds) rom [] m rom1 changes hcompact'
  have hrom1len : rom1.length = rom.length := by
    have hx := compactPointerTargets_length rom ptrs ds
    rw [hcompact] at hx
    exact hx
  have hzs_snd : (ptrs.zip ds).map Prod.snd = ds := List.map_snd_zip _ _ (by omega)
  have hnew : ∀ idx p d, ptrs.get? idx = some p → ds.get? idx = some d →
      dictGet changes p.target_address = some (m + sumLens (ds.take idx)) ∧
      pySlice rom1 (m + sumLens (ds.take idx))
        (m + sumLens (ds.take idx) + d.length) = d := by
    intro idx p d hp hd
    have hzip := get?_zip_some ptrs ds idx p d hp hd
    obtain ⟨hsl, hget⟩ := hrun_s idx p d hzip
    rw [hzs_snd] at hsl hget
    refine ⟨?_, hsl⟩
    apply hget
    intro idx' p' d' hlt hidx'
    obtain ⟨hp', _⟩ := get?_zip_inv ptrs ds idx' p' d' hidx'
    have hi : idx < ptrs.length := by
      by_contra hcon
      rw [List.get?_eq_none.mpr (by omega)] at hp
      cases hp
    have hi' : idx' < ptrs.length := by
      by_contra hcon
      rw [List.get?_eq_none.mpr (by omega)] at hp'
      cases hp'
    have hr := List.pairwise_iff_get.mp hsorted ⟨idx, hi⟩ ⟨idx', hi'⟩ (by simpa using hlt)
    rw [List.get?_eq_get hi] at hp
    rw [List.get?_eq_get hi'] at hp'
    cases hp
    cases hp'
    omega
  have hpre_le : ∀ idx, sumLens (ds.take idx) ≤ sumLens ds := by
    intro idx
    by_cases hidx : idx ≤ ds.length
    · have hx := sumLens_take_le ds idx ds.length hidx
      rw [List.take_length] at hx
      exact hx
    · rw [List.take_of_length_le (by omega)]
  have hupd := updatePointerTable_spec ptrs rom1 changes
    (fun p hp => by
      obtain ⟨n, hn⟩ := List.mem_iff_get?.mp hp
      obtain ⟨_, hf, _⟩ := hspec n p hn
      rw [hf]
      exact hfmts)
    (fun p hp => by
      obtain ⟨n, hn⟩ := List.mem_iff_get?.mp hp
      obtain ⟨_, _, hb⟩ := hspec n p hn
      omega)
    (fun p hp => by
      obtain ⟨n, hn⟩ := List.mem_iff_get?.mp hp
      have hd : ∃ d, ds.get? n = some d := by
        cases hdn : ds.get? n with
        | none =>
          rw [List.get?_eq_none] at hdn
          have hnp : n < ptrs.length := by
            by_contra hcon
            rw [List.get?_eq_none.mpr (by omega)] at hn
            cases hn
          omega
        | some d => exact ⟨d, rfl⟩
      obtain ⟨d, hdn⟩ := hd
      obtain ⟨hget, _⟩ := hnew n p d hn hdn
      exact ⟨m + sumLens (ds.take n), hget, by have := hpre_le n; omega⟩)
    (by
      rw [List.pairwise_iff_get]
      intro i j hij
      obtain ⟨hai, _, _⟩ := hspec i (ptrs.get i) (List.get?_eq_get i.isLt)
      obtain ⟨haj, _, _⟩ := hspec j (ptrs.get j) (List.get?_eq_get j.isLt)
      left
      rw [hai, haj]
      have hij' : (i : Nat) < (j : Nat) := hij
      omega)
  obtain ⟨romF, hupdate, hlenF, huF, hrF⟩ := hupd
  refine ⟨romF, ?_, ?_⟩
  · unfold reinjectPointerTable
    rw [hread]
    dsimp only
    rw [← hds]
    rw [hcompact]
    dsimp only
    rw [hupdate]
  · intro idx p d hp hd
    refine ⟨m + sumLens (ds.take idx), (hnew idx p d hp hd).1, ?_, ?_⟩
    · exact hrF p (List.mem_iff_get?.mpr ⟨idx, hp⟩) _ (hnew idx p d hp hd).1
    · have hslice := (hnew idx p d hp hd).2
      have hregion : m + sumLens (ds.take idx) + d.length ≤ m + sumLens ds := by
        have hi : idx < ds.length := by
          by_contra hcon
          rw [List.get?_eq_none.mpr (by omega)] at hd
          cases hd
        have hx := sumLens_take_succ ds idx d hd
        have h2 := sumLens_take_le ds (idx + 1) ds.length (by omega)
        rw [List.take_length] at h2
        omega
      have hcong : pySlice romF (m + sumLens (ds.take idx))
          (m + sumLens (ds.take idx) + d.length) =
          pySlice rom1 (m + sumLens (ds.take idx))
          (m + sumLens (ds.take idx) + d.length) := by
        apply pySlice_congr
        intro j hj1 hj2
        apply huF
        intro q hq
        rcases hdisj q hq with hlo | hhi
        · constructor <;> omega
        · constructor <;> omega
      rw [hcong]
      exact hslice

/-- Witness for the amended C2: a sorted two-entry little-endian table
with base offset 0, one translated string and one carried-forward
original. -/
theorem c2_pointer_resolution_witness :
    ∃ romF, reinjectPointerTable ⟨[(65, "A")], [("A", 65)], [(255, "<END>")], []⟩
        ([16, 0, 20, 0] ++ List.replicate 12 0 ++ [68, 255, 0, 0, 70, 255] ++
          List.replicate 10 0)
        ⟨0, 2, "little_endian_16bit", 0⟩ [⟨"w", 16, "D", "A", [68], [65], some 0, ""⟩] =
      some romF ∧
      ∀ idx p d,
        ([⟨0, 16, "little_endian_16bit", 2⟩,
          ⟨2, 20, "little_endian_16bit", 2⟩] : List PointerInfo).get? idx = some p →
        (assemblePayloads ⟨[(65, "A")], [("A", 65)], [(255, "<END>")], []⟩
          ([16, 0, 20, 0] ++ List.replicate 12 0 ++ [68, 255, 0, 0, 70, 255] ++
            List.replicate 10 0) [⟨"w", 16, "D", "A", [68], [65], some 0, ""⟩]
          [⟨0, 16, "little_endian_16bit", 2⟩,
           ⟨2, 20, "little_endian_16bit", 2⟩]).get? idx = some d →
        ∃ newT, dictGet [((16 : Nat), (16 : Nat)), (20, 18)] p.target_address = some newT ∧
          read16 romF p.address (p.format_type = "little_endian_16bit") = some newT ∧
          pySlice romF newT (newT + d.length) = d :=
  c2_pointer_resolution ⟨[(65, "A")], [("A", 65)], [(255, "<END>")], []⟩
    ([16, 0, 20, 0] ++ List.replicate 12 0 ++ [68, 255, 0, 0, 70, 255] ++
      List.replicate 10 0)
    ⟨0, 2, "little_endian_16bit", 0⟩ [⟨"w", 16, "D", "A", [68], [65], some 0, ""⟩]
    [⟨0, 16, "little_endian_16bit", 2⟩, ⟨2, 20, "little_endian_16bit", 2⟩]
    ([16, 0, 20, 0] ++ List.replicate 12 0 ++ [65, 255, 70, 255, 70, 255] ++
      List.replicate 10 0)
    [(16, 16), (20, 18)] 16
    rfl (by decide) (by decide) (by decide) (by decide) (by decide) (by decide)

/-- Counterexample to claim C7 as stated: with a zero-length payload for
the first (sorted) pointer, the bump allocator does not advance, so the two
distinct original targets `0x10` and `0x20` are both mapped to the same new
address `0x10` — the address map is not injective, hence not a bijection. -/
theorem c7_counterexample :
    (compactPointerTargets (List.replicate 64 9)
      [⟨0, 16, "little_endian_16bit", 2⟩, ⟨2, 32, "little_endian_16bit", 2⟩]
      [[], [7]]).2 = some [(16, 16), (32, 16)] ∧
    dictGet [((16 : Nat), (16 : Nat)), (32, 16)] 16 = some 16 ∧
    dictGet [((16 : Nat), (16 : Nat)), (32, 16)] 32 = some 16 ∧
    (16 : Nat) ≠ 32 := by decide

/-- Claim C7 amended: when every payload is non-empty and
`compact_pointer_targets` succeeds, the returned address map binds each
processed original target address exactly once (its key list has no
duplicates and covers every pointer's target), the map is injective, and
the newly written payload regions are pairwise non-overlapping. -/
theorem c7_compact_bijection (rom : List Nat) (ps : List PointerInfo)
    (ds : List (List Nat)) (rom' : List Nat) (ch : List (Nat × Nat))
    (hne : ∀ d ∈ ds, 1 ≤ d.length)
    (hc : compactPointerTargets rom ps ds = (rom', some ch)) :
    (keysOf ch).Nodup ∧
    (∀ p ∈ ps, p.target_address ∈ keysOf ch) ∧
    (∀ kv kv', kv ∈ ch → kv' ∈ ch → kv.2 = kv'.2 → kv.1 = kv'.1) ∧
    (∀ m, (ps.map (fun p => p.target_address)).minimum? = some m →
      ∀ i j si di sj, i < j →
        (payloadStarts m ds).get? i = some si → ds.get? i = some di →
        (payloadStarts m ds).get? j = some sj →
        si + di.length ≤ sj) := by
  unfold compactPointerTargets at hc
  by_cases hlen : ps.length ≠ ds.length
  · rw [if_pos hlen] at hc
    simp at hc
  · rw [if_neg hlen] at hc
    cases hmin : (ps.map (fun p => p.target_address)).minimum? with
    | none => rw [hmin] at hc; simp at hc
    | some m =>
      rw [hmin] at hc
      obtain ⟨hnd, hinj, hcov, _⟩ := compactGo_inj
        ((List.insertionSort ptrLe ps).zip ds) [] rom m rom' ch hc
        (fun pd hpd => hne pd.2 (List.of_mem_zip hpd).2)
        (by simp [keysOf]) (by simp) (by simp)
      refine ⟨hnd, ?_, hinj, ?_⟩
      · intro p hp
        have hsortlen : (List.insertionSort ptrLe ps).length = ps.length :=
          (List.perm_insertionSort ptrLe ps).length_eq
        have hmem : p ∈ List.insertionSort ptrLe ps :=
          (List.perm_insertionSort ptrLe ps).mem_iff.mpr hp
        have hfst : ((List.insertionSort ptrLe ps).zip ds).map Prod.fst =
            List.insertionSort ptrLe ps :=
          List.map_fst_zip _ _ (by omega)
        rw [← hfst] at hmem
        obtain ⟨pd, hpd, hpde⟩ := List.mem_map.mp hmem
        rw [← hpde]
        exact hcov pd hpd
      · intro m' hm' i j si di sj hij hsi hdi hsj
        cases hm'
        rw [payloadStarts_get?] at hsi hsj
        have hdi_lt : i < ds.length := by
          by_contra hcon
          rw [List.get?_eq_none.mpr (by omega)] at hdi
          cases hdi
        have hj_lt : j < ds.length := by
          by_contra hcon
          rw [if_neg (by omega)] at hsj
          cases hsj
        rw [if_pos hdi_lt] at hsi
        rw [if_pos hj_lt] at hsj
        cases hsi
        cases hsj
        rw [Nat.add_assoc, ← sumLens_take_succ ds i di hdi]
        have := sumLens_take_le ds (i + 1) j (by omega)
        omega

/-- Witness for the amended C7 on two pointers with one-byte payloads. -/
theorem c7_compact_bijection_witness :
    (keysOf [((16 : Nat), (16 : Nat)), (32, 17)]).Nodup ∧
    (∀ kv kv', kv ∈ [((16 : Nat), (16 : Nat)), (32, 17)] →
      kv' ∈ [((16 : Nat), (16 : Nat)), (32, 17)] → kv.2 = kv'.2 → kv.1 = kv'.1) :=
  have h := c7_compact_bijection (List.replicate 64 9)
    [⟨0, 16, "little_endian_16bit", 2⟩, ⟨2, 32, "little_endian_16bit", 2⟩]
    [[7], [8]]
    (pySliceAssign (pySliceAssign (List.replicate 64 9) 16 17 [7]) 17 18 [8])
    [(16, 16), (32, 17)]
    (by decide) (by decide)
  ⟨h.1, h.2.2.1⟩

/-- Witness for the amended C1: a one-byte in-place replacement in a
4-byte image, under both strategies. -/
theorem c1_length_preserved_witness :
    (reinjectFixedLocations emptyTable [0, 0, 0, 0]
      [⟨"w", 0, "A", "A", [65], [65], none, ""⟩]).length =
      ([0, 0, 0, 0] : List Nat).length ∧
    ([0, 0, 0, 0] : List Nat).length = ([0, 0, 0, 0] : List Nat).length :=
  c1_length_preserved emptyTable [0, 0, 0, 0]
    [⟨"w", 0, "A", "A", [65], [65], none, ""⟩]
    ⟨0, 1, "little_endian_16bit", 0⟩ [0, 0, 0, 0]
    (by decide) (by decide)

/-- Claim C10: calling `decode_bytes` with an explicit length of `0` behaves
exactly like calling it with no length at all (Python's truthiness test
`if length` treats `0` as absent), so decoding proceeds from the start
offset to the end of the data or to the first end marker. -/
theorem c10_zero_length_is_absent (t : EncodingTable) (data : List Nat) (start : Nat) :
    decodeBytes t data start (some 0) = decodeBytes t data start none := by
  simp [decodeBytes, decodeBytesEnd]

/-- Claim C4: `decode_bytes` stops before (and excludes) the first byte whose
decoded form is exactly `<END>` or `<NULL>`: if the byte `k` positions past
`start` is such an end marker, every earlier byte in range is readable and
not an end marker, and the marker lies strictly inside the decode window,
then the result decodes exactly the `k` bytes before the marker — even when
a supplied length bound has not yet been reached. -/
theorem c4_decode_stops_at_end_marker (t : EncodingTable) (data : List Nat)
    (start k : Nat) (length : Option Nat) (b : Nat)
    (hin : start + k < decodeBytesEnd data.length start length)
    (hb : data.get? (start + k) = some b)
    (hterm : isEndMarker t b)
    (hpre : ∀ j, j < k → ∃ b', data.get? (start + j) = some b' ∧ ¬ isEndMarker t b') :
    decodeBytes t data start length =
      some (String.join (((data.drop start).take k).map
        (fun b' => decodeByte t (Int.ofNat b')))) := by
  unfold decodeBytes
  rw [decodeBytesGo_stops t data (decodeBytesEnd data.length start length) k start
    (decodeBytesEnd data.length start length - start) (by omega) hin hpre
    (fun b' hb' => by rw [hb] at hb'; cases hb'; exact hterm)
    (by rw [hb]; intro h; cases h)]
  rfl

/-- Witness for C4 at the specification's own example: table
`{0x41: A, 0xFF: END}`, data `41 41 FF 41`, `length = 4` decodes to `AA`. -/
theorem c4_decode_stops_at_end_marker_witness :
    decodeBytes ⟨[(65, "A")], [("A", 65)], [(255, "<END>")], []⟩ [65, 65, 255, 65]
      0 (some 4) = some "AA" := by
  have h := c4_decode_stops_at_end_marker
    ⟨[(65, "A")], [("A", 65)], [(255, "<END>")], []⟩ [65, 65, 255, 65] 0 2 (some 4) 255
    (by decide) (by decide) (by decide)
    (by
      intro j hj
      refine ⟨65, ?_, ?_⟩
      · interval_cases j <;> decide
      · decide)
  simpa using h

/-- Claim C8: for every input text and every byte budget,
`_truncate_translation` returns a string that `encode_string` encodes
without error into at most `maxBytes` bytes (the empty string being the
final fallback). -/
theorem c8_truncation_guarantee (t : EncodingTable) (text : String) (maxBytes : Nat) :
    ∃ bs, encodeString t (truncateTranslation t text maxBytes) = some bs ∧
      bs.length ≤ maxBytes :=
  truncateGo_encodes t text maxBytes text.length

/-- Counterexample to claim C3 as stated: in the loader-produced table for
the file lines `41=A` and `42=A` (two bytes mapped to the same glyph),
`decode_byte 0x41` yields `A`, which is not a synthetic placeholder, yet
`encode_string "A"` returns `[0x42]` because `char_to_byte` keeps only the
last byte for a duplicated glyph — so the round trip fails at `b = 0x41`. -/
theorem c3_counterexample :
    ∃ t, loadTable ["41=A", "42=A"] = Except.ok t ∧
      decodeByte t (Int.ofNat 65) = "A" ∧
      (∀ x, "A" ≠ "<UNK:" ++ x ++ ">") ∧
      encodeString t (decodeByte t (Int.ofNat 65)) = some [66] ∧
      some [66] ≠ some ([65] : List Nat) := by
  refine ⟨⟨[(65, "A"), (66, "A")], [("A", 66)], [], []⟩, by decide, by decide, ?_, by decide,
    by decide⟩
  intro x h
  have hlen : ("A" : String).length = ("<UNK:" ++ x ++ ">").length := by rw [h]
  rw [String.length_append, String.length_append] at hlen
  rw [show ("A" : String).length = 1 from rfl, show ("<UNK:" : String).length = 5 from rfl,
    show (">" : String).length = 1 from rfl] at hlen
  omega

/-- Claim C3 amended: the round trip `encode_string (decode_byte b) = [b]`
holds for a mapped byte `b` (so `decode_byte b` is not a synthetic
placeholder) provided `b` is the canonical byte for its decoded form: for a
control code, `b` is the first table entry carrying that token; for a
glyph, the glyph is a single character and `char_to_byte` (last-wins under
duplicates) still maps it back to `b`. -/
theorem c3_roundtrip (t : EncodingTable) (b : Nat) (s : String) (hb : b < 256)
    (hdec : decodeByte t (Int.ofNat b) = s)
    (hcanon :
      (∃ mid, s.toList = '<' :: (mid ++ ['>']) ∧ '>' ∉ mid ∧
        findControlByte t s = some (Int.ofNat b))
      ∨ ((∃ c, s = String.mk [c]) ∧ dictGet t.char_to_byte s = some (Int.ofNat b))) :
    encodeString t s = some [b] := by
  have hrange : ([Int.ofNat b] : List Int).all (fun v => decide (0 ≤ v ∧ v < 256)) = true := by
    simp only [List.all_cons, List.all_nil, Bool.and_true, decide_eq_true_eq]
    constructor
    · exact Int.ofNat_nonneg b
    · exact Int.ofNat_lt.mpr hb
  rcases hcanon with ⟨mid, hlist, hmid, hfind⟩ | ⟨⟨c, hc⟩, hget⟩
  · unfold encodeString
    rw [hlist]
    have hfuel : ('<' :: (mid ++ ['>'])).length = mid.length + 1 + 1 := by simp
    rw [hfuel]
    rw [encodeGo_token t mid (Int.ofNat b) (mid.length + 1) hmid
      (by rw [← hlist, strOf_toList]; exact hfind)]
    simp [hrange, hb]
  · unfold encodeString
    have hlist : s.toList = [c] := by rw [hc]; rfl
    rw [hlist]
    rw [show ([c] : List Char).length = 0 + 1 by simp]
    rw [encodeGo_single t c (Int.ofNat b) 0 (by rw [← hc]; exact hget)]
    simp [hrange, hb]

/-- Witness for the amended C3 round trip on the table mapping `0x41` to
`A` and `0xFF` to the token for end-of-string. -/
theorem c3_roundtrip_witness :
    encodeString ⟨[(65, "A")], [("A", 65)], [(255, "<END>")], []⟩ "A" = some [65] :=
  c3_roundtrip ⟨[(65, "A")], [("A", 65)], [(255, "<END>")], []⟩ 65 "A" (by decide)
    (by decide) (Or.inr ⟨⟨'A', rfl⟩, by decide⟩)

/-- Counterexample to claim C5 as stated: the non-empty, non-comment,
malformed line `@@` (it has no `=` separator at all) is silently skipped —
`load_table` returns an empty table instead of failing with a format
error, because `_parse_table_line` returns early when `=` is absent. -/
theorem c5_counterexample : loadTable ["@@"] = Except.ok emptyTable := by decide

/-- Claim C5 amended: loading fails with a format error carrying the
1-based line number for the first non-empty, non-comment line that contains
`=` with invalid hex on the left (and no placeholder letters); lines
without `=` are silently skipped, not errors. -/
theorem c5_invalid_hex_error (lines : List String) (i : Nat) (line msg : String)
    (hget : lines.get? i = some line)
    (hskip : skipLine line = false)
    (hfail : lineFailure line = some msg)
    (hprev : ∀ j l', j < i → lines.get? j = some l' →
      skipLine l' = true ∨ lineFailure l' = none) :
    loadTable lines = Except.error (i + 1, msg) := by
  unfold loadTable
  rw [loadTableGo_first_bad msg lines emptyTable 1 i line hget hskip hfail hprev]
  rw [Nat.add_comm]

/-- Witness for the amended C5: the single line `zz=A` makes loading fail
at line 1 with the invalid-hex message. -/
theorem c5_invalid_hex_error_witness :
    loadTable ["zz=A"] = Except.error (0 + 1, "Invalid hex value: zz") :=
  c5_invalid_hex_error ["zz=A"] 0 "zz=A" "Invalid hex value: zz" (by decide) (by decide)
    (by decide) (fun j l' hj _ => absurd hj (by omega))


/-- Counterexample to claim C6 as stated: two 65536-byte buffers that
differ at every byte form one maximal differing run of length 65536, which
does not fit the record's 2-byte big-endian length field; the length
conversion raises `OverflowError` and patch generation aborts instead of
emitting a record. -/
theorem c6_counterexample :
    generateIpsRecords (List.replicate 65536 0) (List.replicate 65536 1) =
      .error "OverflowError" := by
  have hlenA : (List.replicate 65536 (0 : Nat)).length = 65536 :=
    List.length_replicate _ _
  have hlenB : (List.replicate 65536 (1 : Nat)).length = 65536 :=
    List.length_replicate _ _
  have hgA : ∀ j, j < 65536 → (List.replicate 65536 (0 : Nat)).getD j 0 = 0 := by
    intro j hj
    rw [List.getD_eq_get?, List.get?_eq_getElem?, List.getElem?_replicate, if_pos hj]
    rfl
  have hgB : ∀ j, j < 65536 → (List.replicate 65536 (1 : Nat)).getD j 0 = 1 := by
    intro j hj
    rw [List.getD_eq_get?, List.get?_eq_getElem?, List.getElem?_replicate, if_pos hj]
    rfl
  have hdiff : ∀ j, j < (List.replicate 65536 (0 : Nat)).length →
      (List.replicate 65536 (0 : Nat)).getD j 0 ≠
        (List.replicate 65536 (1 : Nat)).getD j 0 := by
    intro j hj
    rw [hlenA] at hj
    rw [hgA j hj, hgB j hj]
    decide
  have hfde : findDiffEnd (List.replicate 65536 0) (List.replicate 65536 1)
      65536 0 = 65536 := by
    have h := findDiffEnd_all_diff _ _ hdiff 65536 0 (by rw [hlenA])
      (Nat.zero_le _)
    rw [hlenA] at h
    exact h
  have hfde2 : findDiffEnd (List.replicate 65536 0) (List.replicate 65536 1)
      ((List.replicate 65536 (0 : Nat)).length - 0) 0 - 0 > 65535 := by
    rw [hlenA, Nat.sub_zero, Nat.sub_zero, hfde]
    omega
  unfold generateIpsRecords
  rw [if_neg (by rw [hlenA, hlenB]; omega)]
  rw [hlenA]
  have hstep := ipsRecordsGo_step (List.replicate 65536 0) (List.replicate 65536 1)
    65535 0
  rw [show (65535 : Nat) + 1 = 65536 by omega] at hstep
  rw [hstep]
  rw [if_pos (by rw [hlenA]; omega)]
  rw [if_pos (hdiff 0 (by rw [hlenA]; omega))]
  rw [if_neg (by omega : ¬(0 ≥ 16777216))]
  rw [if_pos hfde2]

/-- Claim C6 amended: whenever record generation succeeds (equal-length
buffers, every maximal differing run at most 65535 bytes, offsets below
2^24), applying the records in file order to `A` reconstructs `B` byte for
byte; `generateIpsRecords A A` yields zero records, and the patch for
identical buffers is header and footer only. -/
theorem c6_patch_roundtrip (A B : List Nat) (recs : List (Nat × List Nat))
    (hok : generateIpsRecords A B = .ok recs) :
    applyIpsRecords A recs = B ∧
    generateIpsRecords A A = .ok [] ∧
    generateIpsPatch A A = .ok [80, 65, 84, 67, 72, 69, 79, 70] := by
  refine ⟨generateIpsRecords_reconstructs A B recs hok, ?_, ?_⟩
  · unfold generateIpsRecords
    rw [if_neg (fun h => h rfl)]
    exact ipsRecordsGo_self A A.length 0
  · unfold generateIpsPatch generateIpsRecords
    rw [if_neg (fun h => h rfl)]
    rw [ipsRecordsGo_self A A.length 0]
    rfl

theorem c6_patch_roundtrip_witness :
    applyIpsRecords [1, 2, 3, 4] [(1, [9, 9])] = [1, 9, 9, 4] ∧
    generateIpsRecords [1, 2, 3, 4] [1, 2, 3, 4] = .ok [] ∧
    generateIpsPatch [1, 2, 3, 4] [1, 2, 3, 4] =
      .ok [80, 65, 84, 67, 72, 69, 79, 70] :=
  c6_patch_roundtrip [1, 2, 3, 4] [1, 9, 9, 4] [(1, [9, 9])] (by decide)


/-- Counterexample to claim C9 as stated: a 16-byte ROM with a valid iNES
header declaring one PRG bank and one CHR bank but carrying no data after
the header is truncated relative to the declared bank counts, yet the
analysis reports `chr_rom` with an empty warning list (the CHR slice is
silently treated as empty) instead of an "unknown" analysis with a
warning. -/
theorem c9_counterexample :
    (analyzeRom ([78, 69, 83, 26, 1, 1] ++ List.replicate 10 0)).chr_type =
      CHRType.chr_rom ∧
    (analyzeRom ([78, 69, 83, 26, 1, 1] ++ List.replicate 10 0)).warnings = [] ∧
    ([78, 69, 83, 26, 1, 1] ++ List.replicate 10 0).length <
      16 + 1 * 16384 + 1 * 8192 :=
  ⟨rfl, rfl, by decide⟩

/-- Claim C9 amended: the analysis is a total function of the ROM bytes
(never throws); a ROM shorter than 16 bytes or with a bad 4-byte magic
yields the "unknown" analysis with the header warning; a valid header with
a zero tile-bank count yields the distinct CHR-RAM state (with its own
warning and no tile list); but a valid header whose declared banks run
past the end of the ROM is NOT soft-failed: the CHR slice is treated as
empty and the analysis reports `chr_rom` with no warnings and all tiles
blank. -/
theorem c9_soft_failure (rom : List Nat) :
    (rom.length < 16 ∨ pySlice rom 0 4 ≠ [78, 69, 83, 26] →
      (analyzeRom rom).chr_type = CHRType.unknown ∧
      (analyzeRom rom).warnings = ["Failed to parse iNES header"]) ∧
    (16 ≤ rom.length → pySlice rom 0 4 = [78, 69, 83, 26] → rom.getD 5 0 = 0 →
      (analyzeRom rom).chr_type = CHRType.chr_ram ∧
      (analyzeRom rom).warnings =
        ["CHR RAM detected - graphics are loaded at runtime"] ∧
      (analyzeRom rom).tile_info = []) ∧
    (16 ≤ rom.length → pySlice rom 0 4 = [78, 69, 83, 26] → rom.getD 5 0 ≠ 0 →
      rom.length < 16 + rom.getD 4 0 * 16384 + rom.getD 5 0 * 8192 →
      (analyzeRom rom).chr_type = CHRType.chr_rom ∧
      (analyzeRom rom).warnings = [] ∧
      (analyzeRom rom).tile_info.all (fun t => t.is_blank) = true) := by
  refine ⟨?_, ?_, ?_⟩
  · intro h
    rw [analyzeRom_header_fail rom (parseInesHeader_bad rom h)]
    exact ⟨rfl, rfl⟩
  · intro h1 h2 h5
    have hp := parseInesHeader_some rom h1 h2
    rw [h5, Nat.zero_mul] at hp
    rw [analyzeRom_header_ok rom _ 0 _ hp, analyzeChr_zero]
    exact ⟨rfl, rfl, rfl⟩
  · intro h1 h2 h5 htr
    have hp := parseInesHeader_some rom h1 h2
    have hext : extractChrData rom (rom.getD 4 0 * 16384)
        (rom.getD 5 0 * 8192) = [] := by
      unfold extractChrData
      rw [if_neg (by omega)]
    have hc : rom.getD 5 0 * 8192 ≠ 0 := by omega
    rw [analyzeRom_header_ok rom _ _ _ hp, hext]
    refine ⟨analyzeChr_pos_chr_type _ _ hc, analyzeChr_pos_warnings _ _ hc, ?_⟩
    rw [analyzeChr_pos_tile_info _ _ hc]
    rw [List.all_eq_true]
    intro t ht
    rw [List.mem_map] at ht
    obtain ⟨ti, hti, rfl⟩ := ht
    rw [getTileData_nil]
    exact analyzeTile_replicate_blank ti

theorem c9_soft_failure_witness :
    ((analyzeRom [0, 1, 2]).chr_type = CHRType.unknown ∧
      (analyzeRom [0, 1, 2]).warnings = ["Failed to parse iNES header"]) ∧
    ((analyzeRom ([78, 69, 83, 26, 1, 0] ++ List.replicate 10 0)).chr_type =
        CHRType.chr_ram ∧
      (analyzeRom ([78, 69, 83, 26, 1, 0] ++ List.replicate 10 0)).warnings =
        ["CHR RAM detected - graphics are loaded at runtime"] ∧
      (analyzeRom ([78, 69, 83, 26, 1, 0] ++ List.replicate 10 0)).tile_info = []) ∧
    ((analyzeRom ([78, 69, 83, 26, 0, 1] ++ List.replicate 10 0)).chr_type =
        CHRType.chr_rom ∧
      (analyzeRom ([78, 69, 83, 26, 0, 1] ++ List.replicate 10 0)).warnings = [] ∧
      (analyzeRom ([78, 69, 83, 26, 0, 1] ++ List.replicate 10 0)).tile_info.all
        (fun t => t.is_blank) = true) :=
  ⟨(c9_soft_failure [0, 1, 2]).1 (Or.inl (by decide)),
   (c9_soft_failure ([78, 69, 83, 26, 1, 0] ++ List.replicate 10 0)).2.1
     (by decide) (by decide) (by decide),
   (c9_soft_failure ([78, 69, 83, 26, 0, 1] ++ List.replicate 10 0)).2.2
     (by decide) (by decide) (by decide) (by decide)⟩

end FamiLator
